import Mathlib

/-! LevelDB on-disk encoding core: a shallow embedding.

Embedding of `util/coding.cc`, `db/log_writer.cc`, `table/block_builder.cc`
and `table/filter_block.cc`.

Conventions.
* A byte string (`std::string`, `Slice` contents) is a `List Nat`; a value
  stored through a `uint8_t` lvalue is reduced `% 256`, a value stored in a
  `uint32_t` is reduced `% 2 ^ 32`, in a `uint64_t` `% 2 ^ 64`.
* A `const char* p` walked up to `limit` is the list of bytes in `[p, limit)`;
  a returned pointer is the remaining suffix, `nullptr` is `none`.
-/

namespace leveldb

/-! ## util/coding.cc -/

/-- Modelled from the spec: `EncodeFixed32` of `util/coding.h` (the header is
not among the sources): four bytes, little-endian, constant width. -/
def EncodeFixed32 (value : Nat) : List Nat :=
  [value % 256, (value >>> 8) % 256, (value >>> 16) % 256, (value >>> 24) % 256]

/-- Modelled from the spec: `DecodeFixed32` of `util/coding.h`, the exact
inverse of `EncodeFixed32`, reading four bytes at index `i` of `buf`
(bytes outside the buffer read as 0). -/
def DecodeFixed32 (buf : List Nat) (i : Nat) : Nat :=
  (buf.getD i 0) % 256 + (buf.getD (i + 1) 0) % 256 * 2 ^ 8
    + (buf.getD (i + 2) 0) % 256 * 2 ^ 16 + (buf.getD (i + 3) 0) % 256 * 2 ^ 24

/-- `PutFixed32(dst, value)`: append the fixed encoding to `dst`. -/
def PutFixed32 (dst : List Nat) (value : Nat) : List Nat :=
  dst ++ EncodeFixed32 value

/-- `EncodeVarint32(dst, v)`: the bytes written at `dst` (the returned pointer
is `dst` plus their number). -/
def EncodeVarint32 (v : Nat) : List Nat :=
  let B := 128
  if v < 1 <<< 7 then
    [v % 256]
  else if v < 1 <<< 14 then
    [(v ||| B) % 256, (v >>> 7) % 256]
  else if v < 1 <<< 21 then
    [(v ||| B) % 256, ((v >>> 7) ||| B) % 256, (v >>> 14) % 256]
  else if v < 1 <<< 28 then
    [(v ||| B) % 256, ((v >>> 7) ||| B) % 256, ((v >>> 14) ||| B) % 256, (v >>> 21) % 256]
  else
    [(v ||| B) % 256, ((v >>> 7) ||| B) % 256, ((v >>> 14) ||| B) % 256,
      ((v >>> 21) ||| B) % 256, (v >>> 28) % 256]

/-- `PutVarint32(dst, v)`. -/
def PutVarint32 (dst : List Nat) (v : Nat) : List Nat :=
  dst ++ EncodeVarint32 v

/-- `EncodeVarint64(dst, v)`: the bytes written by the `while (v >= B)` loop
and the final store. -/
def EncodeVarint64 (v : Nat) : List Nat :=
  if h : v ≥ 128 then
    ((v ||| 128) % 256) :: EncodeVarint64 (v >>> 7)
  else
    [v % 256]
termination_by v
decreasing_by
  simp only [Nat.shiftRight_eq_div_pow]
  omega

/-- `PutVarint64(dst, v)`. -/
def PutVarint64 (dst : List Nat) (v : Nat) : List Nat :=
  dst ++ EncodeVarint64 v

/-- `PutLengthPrefixedSlice(dst, value)`; `value.size()` is converted to
`uint32_t` at the call of `PutVarint32`. -/
def PutLengthPrefixedSlice (dst : List Nat) (value : List Nat) : List Nat :=
  PutVarint32 dst (value.length % 2 ^ 32) ++ value

/-- `VarintLength(v)`. -/
def VarintLength (v : Nat) : Nat :=
  if h : v ≥ 128 then VarintLength (v >>> 7) + 1 else 1
termination_by v
decreasing_by
  simp only [Nat.shiftRight_eq_div_pow]
  omega

/-- The `for` loop of `GetVarint32PtrFallback`, entered with the bytes of
`[p, limit)`, the current `shift` and `result`. -/
def GetVarint32PtrLoop : List Nat → Nat → Nat → Option (Nat × List Nat)
  | [], _, _ => none
  | c :: p, shift, result =>
    if shift ≤ 28 then
      let byte := c % 256
      if byte &&& 128 ≠ 0 then
        GetVarint32PtrLoop p (shift + 7) (result ||| (((byte &&& 127) <<< shift) % 2 ^ 32))
      else
        some (result ||| ((byte <<< shift) % 2 ^ 32), p)
    else
      none

/-- `GetVarint32PtrFallback(p, limit, value)`: `some (value, q)` with `q` the
bytes from the returned pointer to `limit`, or `none` for `nullptr`. -/
def GetVarint32PtrFallback (p : List Nat) : Option (Nat × List Nat) :=
  GetVarint32PtrLoop p 0 0

/-- The `for` loop of `GetVarint64Ptr`. -/
def GetVarint64PtrLoop : List Nat → Nat → Nat → Option (Nat × List Nat)
  | [], _, _ => none
  | c :: p, shift, result =>
    if shift ≤ 63 then
      let byte := c % 256
      if byte &&& 128 ≠ 0 then
        GetVarint64PtrLoop p (shift + 7) (result ||| (((byte &&& 127) <<< shift) % 2 ^ 64))
      else
        some (result ||| ((byte <<< shift) % 2 ^ 64), p)
    else
      none

/-- `GetVarint64Ptr(p, limit, value)`. -/
def GetVarint64Ptr (p : List Nat) : Option (Nat × List Nat) :=
  GetVarint64PtrLoop p 0 0

/-- `GetVarint64(input, value)`: `some (value, input')` when it returns true,
`none` when it returns false (the input is then left unchanged). -/
def GetVarint64 (input : List Nat) : Option (Nat × List Nat) :=
  match GetVarint64Ptr input with
  | none => none
  | some (value, q) => some (value, q)

/-- Modelled from the spec: `GetVarint32Ptr` of `util/coding.h` (the header is
not among the sources), the varint32 decoder `decode_varint`; it yields what
`GetVarint32PtrFallback` yields. -/
def GetVarint32Ptr (p : List Nat) : Option (Nat × List Nat) :=
  GetVarint32PtrFallback p

/-- `GetVarint32(input, value)`: `some (value, input')` when it returns true,
`none` when it returns false. -/
def GetVarint32 (input : List Nat) : Option (Nat × List Nat) :=
  match GetVarint32Ptr input with
  | none => none
  | some (value, q) => some (value, q)

/-- `GetLengthPrefixedSlice(p, limit, result)`: `some (result, q)` with `q`
the bytes from the returned pointer to `limit`, `none` for `nullptr`. -/
def GetLengthPrefixedSlicePtr (p : List Nat) : Option (List Nat × List Nat) :=
  match GetVarint32Ptr p with
  | none => none
  | some (len, q) =>
    if q.length < len then none
    else some (q.take len, q.drop len)

/-- `GetLengthPrefixedSlice(input, result)`: `some (result, input')` when it
returns true, `none` when it returns false. -/
def GetLengthPrefixedSlice (input : List Nat) : Option (List Nat × List Nat) :=
  match GetVarint32 input with
  | none => none
  | some (len, input1) =>
    if input1.length ≥ len then some (input1.take len, input1.drop len)
    else none

/-- The byte `c`, read through `uint8_t`, has its high bit set. -/
def highBitSet (c : Nat) : Bool :=
  (c % 256) &&& 128 != 0

/-- The number of iterations the loop of `GetVarint32PtrFallback` can still
make when entered with `shift`. -/
def itersLeft32 (shift : Nat) : Nat :=
  if shift ≤ 28 then (28 - shift) / 7 + 1 else 0

/-- The number of iterations the loop of `GetVarint64Ptr` can still make when
entered with `shift`. -/
def itersLeft64 (shift : Nat) : Nat :=
  if shift ≤ 63 then (63 - shift) / 7 + 1 else 0

/-! ## db/log_writer.cc -/

/-- Modelled from the spec: `Status` of `leveldb/status.h` (not among the
sources), reduced to what the writer inspects: success, or an I/O failure
that is opaque to this code. -/
inductive Status where
  | OK
  | Error (code : Nat)
  deriving DecidableEq, Repr

/-- `Status::ok()`. -/
def Status.ok : Status → Bool
  | Status.OK => true
  | Status.Error _ => false

/-- Modelled from the spec: `RecordType` of `db/log_format.h` (not among the
sources); `kZeroType` is reserved for preallocated files. -/
inductive RecordType where
  | kZeroType
  | kFullType
  | kFirstType
  | kMiddleType
  | kLastType
  deriving DecidableEq, Repr

/-- The numeric value of a record type, as stored in the header. -/
def RecordType.toNat : RecordType → Nat
  | RecordType.kZeroType => 0
  | RecordType.kFullType => 1
  | RecordType.kFirstType => 2
  | RecordType.kMiddleType => 3
  | RecordType.kLastType => 4

/-- Modelled from the spec: `kBlockSize` of `db/log_format.h`, 32 KiB. -/
def kBlockSize : Int := 32768

/-- Modelled from the spec: `kHeaderSize` of `db/log_format.h`; the
`static_assert` in `AddRecord` pins it to 7. -/
def kHeaderSize : Int := 7

/-- Modelled from the spec: the durable append target (`WritableFile` of
`leveldb/env.h`, not among the sources) over a state `σ`: `Append` and
`Flush` return the new state of the file and a status. -/
structure WritableFile (σ : Type) where
  Append : σ → List Nat → σ × Status
  Flush : σ → σ × Status

/-- Modelled from the spec: the CRC32C primitive (`util/crc32c.h`, not among
the sources): `Value`, `Extend` and `Mask`. -/
structure Crc32c where
  Value : List Nat → Nat
  Extend : Nat → List Nat → Nat
  Mask : Nat → Nat

/-- A `Slice`: the address of its first byte and its size. -/
structure Slice where
  data_ : Nat
  size_ : Nat
  deriving DecidableEq, Repr

/-- The `n` bytes of memory starting at address `p`. -/
def readBytes (mem : Nat → Nat) (p n : Nat) : List Nat :=
  (List.range n).map (fun i => mem (p + i))

/-- What a call of the writer does, in order: each call of
`EmitPhysicalRecord` with its arguments, and each `Append` / `Flush` issued on
the destination with the status it returned. -/
inductive Event where
  | emit (t : RecordType) (ptr : Nat) (length : Nat)
  | append (data : List Nat) (s : Status)
  | flush (s : Status)
  deriving DecidableEq, Repr

/-- The state of a `log::Writer`: the destination and `block_offset_`. -/
structure Writer (σ : Type) where
  dest_ : σ
  block_offset_ : Int

/-- `Writer::Writer(dest)`. -/
def Writer.create {σ : Type} (dest : σ) : Writer σ :=
  ⟨dest, 0⟩

/-- `Writer::Writer(dest, dest_length)`. -/
def Writer.createAt {σ : Type} (dest : σ) (dest_length : Nat) : Writer σ :=
  ⟨dest, (dest_length : Int) % kBlockSize⟩

/-- `Writer::EmitPhysicalRecord(t, ptr, length)`: the new writer state, the
returned status and the events of the call. -/
def EmitPhysicalRecord {σ : Type} (F : WritableFile σ) (C : Crc32c) (mem : Nat → Nat)
    (w : Writer σ) (t : RecordType) (ptr length : Nat) : Writer σ × Status × List Event :=
  let payload := readBytes mem ptr length
  let buf4 := (length &&& 0xff) % 256
  let buf5 := (length >>> 8) % 256
  let buf6 := t.toNat % 256
  let crc := C.Mask (C.Extend (C.Value [t.toNat]) payload)
  let buf := EncodeFixed32 crc ++ [buf4, buf5, buf6]
  let r1 := F.Append w.dest_ buf
  if r1.2.ok then
    let r2 := F.Append r1.1 payload
    if r2.2.ok then
      let r3 := F.Flush r2.1
      (⟨r3.1, w.block_offset_ + kHeaderSize + length⟩, r3.2,
        [Event.emit t ptr length, Event.append buf r1.2, Event.append payload r2.2,
          Event.flush r3.2])
    else
      (⟨r2.1, w.block_offset_ + kHeaderSize + length⟩, r2.2,
        [Event.emit t ptr length, Event.append buf r1.2, Event.append payload r2.2])
  else
    (⟨r1.1, w.block_offset_ + kHeaderSize + length⟩, r1.2,
      [Event.emit t ptr length, Event.append buf r1.2])

/-- The first half of the body of the `do` loop of `AddRecord`: switch to a
new block when fewer than `kHeaderSize` bytes are left in the current one. The
status of the padding `Append` is not kept. -/
def switchBlock {σ : Type} (F : WritableFile σ) (w : Writer σ) : Writer σ × List Event :=
  let leftover : Int := kBlockSize - w.block_offset_
  if leftover < kHeaderSize then
    if leftover > 0 then
      let zeros := List.replicate leftover.toNat 0
      let r := F.Append w.dest_ zeros
      (⟨r.1, 0⟩, [Event.append zeros r.2])
    else
      (⟨w.dest_, 0⟩, [])
  else
    (w, [])

/-- The value of `avail` in an iteration of the loop of `AddRecord` entered
with `block_offset_ = b`. -/
def availAt (b : Int) : Nat :=
  ((kBlockSize - (if kBlockSize - b < kHeaderSize then 0 else b) - kHeaderSize) % 2 ^ 64).toNat

/-- The bytes a trace hands to `Append`. -/
def appendedLength : List Event → Nat
  | [] => 0
  | Event.append data _ :: rest => data.length + appendedLength rest
  | _ :: rest => appendedLength rest

/-- The record type chosen from `begin` and `end`. -/
def chooseType (begin_ end_ : Bool) : RecordType :=
  if begin_ && end_ then RecordType.kFullType
  else if begin_ then RecordType.kFirstType
  else if end_ then RecordType.kLastType
  else RecordType.kMiddleType

/-- The `do ... while (s.ok() && left > 0)` loop of `AddRecord`, run for at
most `fuel` iterations (`none` when they do not suffice). As in the source,
`ptr` and `left` are updated before `EmitPhysicalRecord` is called. -/
def AddRecordLoop {σ : Type} (F : WritableFile σ) (C : Crc32c) (mem : Nat → Nat) :
    Nat → Writer σ → Nat → Nat → Bool → Option (Writer σ × Status × List Event)
  | 0, _, _, _, _ => none
  | fuel + 1, w, ptr, left, begin_ =>
    let sw := switchBlock F w
    let avail : Nat := ((kBlockSize - sw.1.block_offset_ - kHeaderSize) % 2 ^ 64).toNat
    let fragment_length := if left < avail then left else avail
    let end_ := decide (left = fragment_length)
    let type := chooseType begin_ end_
    let ptr1 := ptr + fragment_length
    let left1 := left - fragment_length
    let r := EmitPhysicalRecord F C mem sw.1 type ptr1 fragment_length
    if r.2.1.ok && decide (left1 > 0) then
      match AddRecordLoop F C mem fuel r.1 ptr1 left1 false with
      | none => none
      | some r2 => some (r2.1, r2.2.1, sw.2 ++ r.2.2 ++ r2.2.2)
    else
      some (r.1, r.2.1, sw.2 ++ r.2.2)

/-- `Writer::AddRecord(slice)`. The loop is given `2 * size + 2` iterations,
which it never exhausts (`AddRecord_returns`). -/
def AddRecord {σ : Type} (F : WritableFile σ) (C : Crc32c) (mem : Nat → Nat)
    (w : Writer σ) (slice : Slice) : Option (Writer σ × Status × List Event) :=
  AddRecordLoop F C mem (2 * slice.size_ + 2) w slice.data_ slice.size_ true

/-- A sequence of `AddRecord` calls on the same writer; the events of all
calls, in order. -/
def AddRecords {σ : Type} (F : WritableFile σ) (C : Crc32c) (mem : Nat → Nat) :
    Writer σ → List Slice → Option (Writer σ × List Event)
  | w, [] => some (w, [])
  | w, slice :: rest =>
    match AddRecord F C mem w slice with
    | none => none
    | some r =>
      match AddRecords F C mem r.1 rest with
      | none => none
      | some r2 => some (r2.1, r.2.2 ++ r2.2)

/-- The record types of the `EmitPhysicalRecord` calls of a trace. -/
def emittedTypes : List Event → List RecordType
  | [] => []
  | Event.emit t _ _ :: rest => t :: emittedTypes rest
  | _ :: rest => emittedTypes rest

/-- The payloads handed to `EmitPhysicalRecord` (the `length` bytes at `ptr`),
concatenated in order. -/
def emittedPayloads (mem : Nat → Nat) : List Event → List Nat
  | [] => []
  | Event.emit _ ptr length :: rest => readBytes mem ptr length ++ emittedPayloads mem rest
  | _ :: rest => emittedPayloads mem rest

/-- The statuses returned by the `Append` and `Flush` calls of a trace. -/
def ioStatuses : List Event → List Status
  | [] => []
  | Event.append _ s :: rest => s :: ioStatuses rest
  | Event.flush s :: rest => s :: ioStatuses rest
  | _ :: rest => ioStatuses rest

/-- An in-memory destination: the file is the list of its bytes, every
`Append` and `Flush` succeeds. -/
def memFile : WritableFile (List Nat) where
  Append := fun file data => (file ++ data, Status.OK)
  Flush := fun file => (file, Status.OK)

/-- A destination whose first call fails and whose later calls succeed; the
state counts the calls. -/
def failFirstFile : WritableFile Nat where
  Append := fun calls _ => (calls + 1, if calls = 0 then Status.Error 1 else Status.OK)
  Flush := fun calls => (calls + 1, if calls = 0 then Status.Error 1 else Status.OK)

/-- A stand-in checksum, for evaluating the writer on concrete inputs. -/
def zeroCrc : Crc32c where
  Value := fun _ => 0
  Extend := fun _ _ => 0
  Mask := fun _ => 0

/-- A memory holding the bytes `bytes` from address 0 on, and 0 elsewhere. -/
def memOf (bytes : List Nat) : Nat → Nat :=
  fun a => bytes.getD a 0

/-- The layout the log format asks of a trace whose first byte lands at file
position `pos`: every `EmitPhysicalRecord` call is a 7-byte header `Append`
followed by the payload `Append`, of a length that fits two bytes, and the
record does not cross a block boundary; `Flush` writes nothing; any other
`Append` is zero bytes only, at most 6 of them, ending at a block boundary. -/
def framed : Nat → List Event → Bool
  | _, [] => true
  | pos, Event.emit _ _ length :: Event.append hdr _ :: Event.append payload _ :: rest =>
    decide (hdr.length = 7) && decide (payload.length = length) && decide (length ≤ 0xffff)
      && decide (pos % 32768 + 7 + length ≤ 32768) && framed (pos + 7 + length) rest
  | _, Event.emit _ _ _ :: _ => false
  | pos, Event.flush _ :: rest => framed pos rest
  | pos, Event.append data _ :: rest =>
    data.all (fun b => decide (b = 0)) && decide (data.length ≤ 6)
      && decide (pos % 32768 + data.length = 32768) && framed (pos + data.length) rest

/-! ## table/block_builder.cc -/

/-- Modelled from the spec: the part of `Options` (`leveldb/options.h`, not
among the sources) the builder reads: the restart interval and the key
comparator (`Compare(a, b)` is negative, zero or positive). -/
structure Options where
  block_restart_interval : Int
  Compare : List Nat → List Nat → Int

/-- The state of a `BlockBuilder`. -/
structure BlockBuilder where
  options_ : Options
  buffer_ : List Nat
  restarts_ : List Nat
  counter_ : Int
  finished_ : Bool
  last_key_ : List Nat

/-- `BlockBuilder::BlockBuilder(options)`. -/
def BlockBuilder.create (options : Options) : BlockBuilder :=
  ⟨options, [], [0], 0, false, []⟩

/-- `BlockBuilder::Reset()`. -/
def Reset (b : BlockBuilder) : BlockBuilder :=
  ⟨b.options_, [], [0], 0, false, []⟩

/-- `BlockBuilder::CurrentSizeEstimate()`. -/
def CurrentSizeEstimate (b : BlockBuilder) : Nat :=
  b.buffer_.length + b.restarts_.length * 4 + 4

/-- `BlockBuilder::Finish()`: the new state and the returned bytes. -/
def Finish (b : BlockBuilder) : BlockBuilder × List Nat :=
  let buf := b.restarts_.foldl (fun acc r => PutFixed32 acc r) b.buffer_
  let buf := PutFixed32 buf (b.restarts_.length % 2 ^ 32)
  (⟨b.options_, buf, b.restarts_, b.counter_, true, b.last_key_⟩, buf)

/-- The `while` loop of `Add` that counts the bytes shared with the previous
key; the two lists are what is left of `last_key_piece` and of `key` from
index `shared` on. -/
def sharedLoop : List Nat → List Nat → Nat → Nat
  | a :: last, c :: key, shared => if a = c then sharedLoop last key (shared + 1) else shared
  | _, _, shared => shared

/-- `std::string::resize(n)`: cut, or fill with zero bytes. -/
def resize (s : List Nat) (n : Nat) : List Nat :=
  s.take n ++ List.replicate (n - s.length) 0

/-- The three assertions at the head of `BlockBuilder::Add`. -/
def AddAsserts (b : BlockBuilder) (key : List Nat) : Bool :=
  (!b.finished_) && decide (b.counter_ ≤ b.options_.block_restart_interval)
    && (b.buffer_.isEmpty || decide (b.options_.Compare key b.last_key_ > 0))

/-- `BlockBuilder::Add(key, value)` (the assertions are `AddAsserts`). -/
def Add (b : BlockBuilder) (key value : List Nat) : BlockBuilder :=
  let last_key_piece := b.last_key_
  let restart := ¬ (b.counter_ < b.options_.block_restart_interval)
  let shared := if restart then 0 else sharedLoop last_key_piece key 0
  let restarts := if restart then b.restarts_ ++ [b.buffer_.length % 2 ^ 32] else b.restarts_
  let counter := if restart then 0 else b.counter_
  let non_shared := key.length - shared
  let buf := PutVarint32 b.buffer_ (shared % 2 ^ 32)
  let buf := PutVarint32 buf (non_shared % 2 ^ 32)
  let buf := PutVarint32 buf (value.length % 2 ^ 32)
  let buf := buf ++ (key.drop shared).take non_shared
  let buf := buf ++ value
  let last := resize b.last_key_ shared ++ (key.drop shared).take non_shared
  ⟨b.options_, buf, restarts, counter + 1, b.finished_, last⟩

/-- The value of `shared` that `Add` computes for `key` in state `b`. -/
def sharedOf (b : BlockBuilder) (key : List Nat) : Nat :=
  if ¬ (b.counter_ < b.options_.block_restart_interval) then 0
  else sharedLoop b.last_key_ key 0

/-- The bytes `Add` appends to `buffer_` for an entry that shares `shared`
bytes with the previous key. -/
def entryBytes (shared : Nat) (key value : List Nat) : List Nat :=
  EncodeVarint32 (shared % 2 ^ 32) ++ EncodeVarint32 ((key.length - shared) % 2 ^ 32)
    ++ EncodeVarint32 (value.length % 2 ^ 32)
    ++ (key.drop shared).take (key.length - shared) ++ value

/-- A sequence of `Add` calls. -/
def AddAll : BlockBuilder → List (List Nat × List Nat) → BlockBuilder
  | b, [] => b
  | b, kv :: rest => AddAll (Add b kv.1 kv.2) rest

/-- The length of the longest common prefix of two byte strings. -/
def lcpLength : List Nat → List Nat → Nat
  | a :: as, c :: cs => if a = c then lcpLength as cs + 1 else 0
  | _, _ => 0

/-- The offset in `buffer_` at which entry `i` of a sequence of `Add` calls
begins: the size of the buffer after the first `i` calls. -/
def entryOffset (b : BlockBuilder) (kvs : List (List Nat × List Nat)) (i : Nat) : Nat :=
  (AddAll b (kvs.take i)).buffer_.length

/-- The assertions of every `Add` of a sequence hold when it is reached. -/
def AddAllAsserts : BlockBuilder → List (List Nat × List Nat) → Bool
  | _, [] => true
  | b, kv :: rest => AddAsserts b kv.1 && AddAllAsserts (Add b kv.1 kv.2) rest

/-- Reading side of a data region, as the format states it: entries
`varint32 shared · varint32 unshared · varint32 value_len · key bytes · value
bytes` one after the other, each key being the first `shared` bytes of the
previous key followed by the unshared bytes; `none` unless the region is
consumed exactly. -/
def decodeEntries : Nat → List Nat → List Nat → Option (List (List Nat × List Nat))
  | 0, _, data => if data.isEmpty then some [] else none
  | fuel + 1, prev, data =>
    if data.isEmpty then some []
    else
      match GetVarint32PtrFallback data with
      | none => none
      | some (shared, d1) =>
        match GetVarint32PtrFallback d1 with
        | none => none
        | some (non_shared, d2) =>
          match GetVarint32PtrFallback d2 with
          | none => none
          | some (value_length, d3) =>
            if d3.length < non_shared + value_length ∨ prev.length < shared then none
            else
              let key := prev.take shared ++ d3.take non_shared
              let value := (d3.drop non_shared).take value_length
              match decodeEntries fuel key (d3.drop (non_shared + value_length)) with
              | none => none
              | some rest => some ((key, value) :: rest)

/-- Reading side of a finished block: the restart count is the fixed32 in the
last 4 bytes, the restart array is skipped, the rest is the data region. -/
def decodeBlock (block : List Nat) : Option (List (List Nat × List Nat)) :=
  let n := block.length
  if n < 4 then none
  else
    let num_restarts := DecodeFixed32 block (n - 4)
    if n < 4 + 4 * num_restarts then none
    else
      let data := block.take (n - 4 - 4 * num_restarts)
      decodeEntries data.length [] data

/-- Modelled from the spec: the default key ordering, byte-wise
lexicographic (`BytewiseComparator`, not among the sources). -/
def bytewiseCompare (a b : List Nat) : Int :=
  if a < b then -1 else if a = b then 0 else 1

/-- Options with `block_restart_interval = 2` and the byte-wise comparator. -/
def sampleOptions : Options :=
  ⟨2, bytewiseCompare⟩

/-- The keys `"abcde"`, `"abcdf"`, `"abxyz"`, each with a value. -/
def sampleEntries : List (List Nat × List Nat) :=
  [([97, 98, 99, 100, 101], [1]), ([97, 98, 99, 100, 102], [2, 2]), ([97, 98, 120, 121, 122], [])]

/-! ## table/filter_block.cc -/

/-- `kFilterBaseLg`. -/
def kFilterBaseLg : Nat := 11

/-- `kFilterBase`. -/
def kFilterBase : Nat := 1 <<< kFilterBaseLg

/-- Modelled from the spec: the filter policy (`leveldb/filter_policy.h`, not
among the sources): `CreateFilter` gives the bytes it appends for a list of
keys, `KeyMayMatch key filter` answers a membership query. -/
structure FilterPolicy where
  CreateFilter : List (List Nat) → List Nat
  KeyMayMatch : List Nat → List Nat → Bool

/-- The state of a `FilterBlockBuilder` (`tmp_keys_` is empty between
calls). -/
structure FilterBlockBuilder where
  keys_ : List Nat
  start_ : List Nat
  result_ : List Nat
  filter_offsets_ : List Nat
  deriving DecidableEq, Repr

/-- `FilterBlockBuilder::FilterBlockBuilder(policy)`. -/
def FilterBlockBuilder.create : FilterBlockBuilder :=
  ⟨[], [], [], []⟩

/-- `static_cast<int>(n)` of a `size_t`. -/
def toInt32 (n : Nat) : Int :=
  if n % 2 ^ 32 < 2 ^ 31 then (n % 2 ^ 32 : Nat) else ((n % 2 ^ 32 : Nat) : Int) - 2 ^ 32

/-- `FilterBlockBuilder::GenerateFilter()`. The policy is handed the array
`tmp_keys_` and the count `static_cast<int>(num_keys)`, of which it reads the
first `n` keys. -/
def GenerateFilter (P : FilterPolicy) (b : FilterBlockBuilder) : FilterBlockBuilder :=
  let num_keys := b.start_.length
  if num_keys = 0 then
    ⟨b.keys_, b.start_, b.result_, b.filter_offsets_ ++ [b.result_.length % 2 ^ 32]⟩
  else
    let start := b.start_ ++ [b.keys_.length]
    let tmp_keys := (List.range num_keys).map
      (fun i => (b.keys_.drop (start.getD i 0)).take (start.getD (i + 1) 0 - start.getD i 0))
    let n := toInt32 num_keys
    ⟨[], [], b.result_ ++ P.CreateFilter (tmp_keys.take n.toNat),
      b.filter_offsets_ ++ [b.result_.length % 2 ^ 32]⟩

/-- The `while (filter_index > filter_offsets_.size())` loop of `StartBlock`. -/
def StartBlockLoop (P : FilterPolicy) (filter_index : Nat) (b : FilterBlockBuilder) :
    FilterBlockBuilder :=
  if filter_index > b.filter_offsets_.length then
    StartBlockLoop P filter_index (GenerateFilter P b)
  else
    b
termination_by filter_index - b.filter_offsets_.length
decreasing_by
  have h : (GenerateFilter P b).filter_offsets_.length = b.filter_offsets_.length + 1 := by
    unfold GenerateFilter
    by_cases h0 : b.start_.length = 0 <;> simp [h0]
  omega

/-- `FilterBlockBuilder::StartBlock(block_offset)` (its assertion is
`StartBlockAssert`). -/
def StartBlock (P : FilterPolicy) (b : FilterBlockBuilder) (block_offset : Nat) :
    FilterBlockBuilder :=
  let filter_index := block_offset / kFilterBase
  StartBlockLoop P filter_index b

/-- The assertion of `StartBlock`. -/
def StartBlockAssert (b : FilterBlockBuilder) (block_offset : Nat) : Bool :=
  decide (block_offset / kFilterBase ≥ b.filter_offsets_.length)

/-- `FilterBlockBuilder::AddKey(key)`. -/
def AddKey (b : FilterBlockBuilder) (key : List Nat) : FilterBlockBuilder :=
  ⟨b.keys_ ++ key, b.start_ ++ [b.keys_.length], b.result_, b.filter_offsets_⟩

/-- `FilterBlockBuilder::Finish()`: the returned bytes. -/
def FilterBlockBuilder.Finish (P : FilterPolicy) (b : FilterBlockBuilder) : List Nat :=
  let b1 := if ¬ b.start_.isEmpty then GenerateFilter P b else b
  let array_offset := b1.result_.length % 2 ^ 32
  let result := b1.filter_offsets_.foldl (fun acc o => PutFixed32 acc o) b1.result_
  let result := PutFixed32 result array_offset
  result ++ [kFilterBaseLg % 256]

/-- A call on the builder. -/
inductive FilterCall where
  | startBlock (block_offset : Nat)
  | addKey (key : List Nat)
  deriving DecidableEq, Repr

/-- A sequence of `StartBlock` / `AddKey` calls. -/
def runCalls (P : FilterPolicy) : FilterBlockBuilder → List FilterCall → FilterBlockBuilder
  | b, [] => b
  | b, FilterCall.startBlock o :: rest => runCalls P (StartBlock P b o) rest
  | b, FilterCall.addKey k :: rest => runCalls P (AddKey b k) rest

/-- The assertion of every `StartBlock` of a sequence holds when it is
reached. -/
def callsAssert (P : FilterPolicy) : FilterBlockBuilder → List FilterCall → Bool
  | _, [] => true
  | b, FilterCall.startBlock o :: rest =>
    StartBlockAssert b o && callsAssert P (StartBlock P b o) rest
  | b, FilterCall.addKey k :: rest => callsAssert P (AddKey b k) rest

/-- The keys added by `AddKey` while the index `offset / kFilterBase` of the
most recent `StartBlock` equalled `i`, in insertion order; `cur` is that index
on entry (0 for a fresh builder, before any `StartBlock`). -/
def segmentKeys : List FilterCall → Nat → Nat → List (List Nat)
  | [], _, _ => []
  | FilterCall.startBlock o :: rest, _, i => segmentKeys rest (o / kFilterBase) i
  | FilterCall.addKey k :: rest, cur, i =>
    (if cur = i then [k] else []) ++ segmentKeys rest cur i

/-- The index `offset / kFilterBase` of the last `StartBlock` of a sequence of
calls (`cur` when there is none). -/
def lastIndex : List FilterCall → Nat → Nat
  | [], cur => cur
  | FilterCall.startBlock o :: rest, _ => lastIndex rest (o / kFilterBase)
  | FilterCall.addKey _ :: rest, cur => lastIndex rest cur

/-- The keys added after the last `StartBlock` of a sequence of calls (`acc`
holds those added since the most recent one so far). -/
def keysAfterLastStart : List FilterCall → List (List Nat) → List (List Nat)
  | [], acc => acc
  | FilterCall.startBlock _ :: rest, _ => keysAfterLastStart rest []
  | FilterCall.addKey k :: rest, acc => keysAfterLastStart rest (acc ++ [k])

/-- The filter of a segment, as the format states it: nothing for a segment
without keys, otherwise what the policy creates for its keys. -/
def segmentFilter (P : FilterPolicy) (keys : List (List Nat)) : List Nat :=
  if keys.isEmpty then [] else P.CreateFilter keys

/-- The bytes `GenerateFilter` appends to `result_` when the buffered keys are
`keys`. -/
def generatedBytes (P : FilterPolicy) (keys : List (List Nat)) : List Nat :=
  if keys.isEmpty then [] else P.CreateFilter (keys.take (toInt32 keys.length).toNat)

/-- The builder state `b` holds the generated segments `segs` (their key
lists) and the buffered keys `pending`: `keys_` and `start_` are the flattened
`pending`, `result_` is the concatenation of the bytes generated for each
segment, `filter_offsets_` their start offsets, stored as `uint32_t`. -/
def Holds (P : FilterPolicy) (b : FilterBlockBuilder) (segs : List (List (List Nat)))
    (pending : List (List Nat)) : Prop :=
  b.keys_ = pending.flatten ∧
  b.start_ = (List.range pending.length).map (fun i => (pending.take i).flatten.length) ∧
  b.result_ = (segs.map (generatedBytes P)).flatten ∧
  b.filter_offsets_ = (List.range segs.length).map
    (fun i => (((segs.map (generatedBytes P)).take i).flatten.length) % 2 ^ 32)

/-- The state of a `FilterBlockReader`: `data_` is the buffer it points into
(`none` for `nullptr`), `offset_` is kept as the distance `offset_ - data_`. -/
structure FilterBlockReader where
  policy_ : FilterPolicy
  data_ : Option (List Nat)
  offset_ : Nat
  num_ : Nat
  base_lg_ : Nat

/-- `FilterBlockReader::FilterBlockReader(policy, contents)`. The last byte is
read as an unsigned byte into `base_lg_`; the shift `block_offset >> base_lg_`
of `KeyMayMatch` is the shift of natural numbers (C++ leaves a shift by 64 or
more undefined). -/
def FilterBlockReader.create (policy : FilterPolicy) (contents : List Nat) :
    FilterBlockReader :=
  let n := contents.length
  if n < 5 then ⟨policy, none, 0, 0, 0⟩
  else
    let base_lg := (contents.getD (n - 1) 0) % 256
    let last_word := DecodeFixed32 contents (n - 5)
    if last_word > n - 5 then ⟨policy, none, 0, 0, base_lg⟩
    else ⟨policy, some contents, last_word, (n - 5 - last_word) / 4, base_lg⟩

/-- `FilterBlockReader::KeyMayMatch(block_offset, key)`. -/
def FilterBlockReader.KeyMayMatch (r : FilterBlockReader) (block_offset : Nat)
    (key : List Nat) : Bool :=
  let index := block_offset >>> r.base_lg_
  if index < r.num_ then
    let data := r.data_.getD []
    let start := DecodeFixed32 data (r.offset_ + index * 4)
    let limit := DecodeFixed32 data (r.offset_ + index * 4 + 4)
    if start ≤ limit ∧ limit ≤ r.offset_ then
      let filter := (data.drop start).take (limit - start)
      r.policy_.KeyMayMatch key filter
    else if start = limit then
      false
    else
      true
  else
    true

/-- A policy that answers every query with `true`. -/
def alwaysMatch : FilterPolicy where
  CreateFilter := fun _ => []
  KeyMayMatch := fun _ _ => true

/-- A policy whose filter is the list of the first bytes of its keys (0 for an
empty key); a key may match when its first byte is in the filter. -/
def firstBytePolicy : FilterPolicy where
  CreateFilter := fun keys => keys.map (fun k => k.headD 0)
  KeyMayMatch := fun key filter => filter.contains (key.headD 0)

/-- A policy whose filters are `size` zero bytes, and for which a key may
match a filter exactly when the filter has that size. -/
def bigFilterPolicy (size : Nat) : FilterPolicy where
  CreateFilter := fun _ => List.replicate size 0
  KeyMayMatch := fun _ filter => decide (filter.length = size)

/-! # Theorems -/

/-! ### Byte-level facts -/

theorem or_128_mod_256 (v : Nat) : (v ||| 128) % 256 = v % 128 + 128 := by
  have h : v % 128 + 128 = 2 ^ 7 * 1 ||| (v % 2 ^ 7) := by
    rw [← Nat.mul_add_lt_is_or (Nat.mod_lt _ (by norm_num)) 1]
    norm_num
    omega
  rw [h]
  apply Nat.eq_of_testBit_eq
  intro i
  have e : (256 : Nat) = 2 ^ 8 := by norm_num
  have e2 : (128 : Nat) = 2 ^ 7 := by norm_num
  rw [e, e2]
  simp only [Nat.testBit_mod_two_pow, Nat.testBit_or, Nat.mul_one, Nat.testBit_two_pow]
  by_cases h7 : i = 7
  · subst h7; simp
  · by_cases hlt : i < 7
    · have : i < 8 := by omega
      simp [hlt, this, h7, Ne.symm h7]
    · have h8 : ¬ i < 8 := by omega
      simp [hlt, h8, Ne.symm h7]

theorem high_bit_set : ∀ x, x < 128 → ((x + 128) &&& 128 ≠ 0 ∧ (x + 128) &&& 127 = x) := by
  decide

theorem high_bit_clear : ∀ x, x < 128 → x &&& 128 = 0 := by
  decide

theorem or_shift (r x s : Nat) (h : r < 2 ^ s) : r ||| (x <<< s) = r + x * 2 ^ s := by
  rw [Nat.shiftLeft_eq, Nat.lor_comm, Nat.mul_comm x, ← Nat.mul_add_lt_is_or h]
  omega

theorem two_pow_shift_lt {s n : Nat} (h : 2 ^ s < 2 ^ n) : s < n :=
  (Nat.pow_lt_pow_iff_right (by norm_num)).mp h

/-- One decoding step of either loop on a continuation byte: the arithmetic
shared by the 32- and the 64-bit decoder. -/
theorem varint_step_arith (v shift result W : Nat) (hv : v ≥ 128)
    (hW : v * 2 ^ shift < 2 ^ W) (hr : result < 2 ^ shift) :
    ((v % 128) <<< shift) % 2 ^ W = (v % 128) * 2 ^ shift ∧
    result ||| ((v % 128) * 2 ^ shift) = result + (v % 128) * 2 ^ shift ∧
    shift + 7 < W ∧
    (v >>> 7) * 2 ^ (shift + 7) < 2 ^ W ∧
    result + (v % 128) * 2 ^ shift < 2 ^ (shift + 7) ∧
    result + (v % 128) * 2 ^ shift + (v >>> 7) * 2 ^ (shift + 7) = result + v * 2 ^ shift := by
  have hq : v >>> 7 = v / 128 := by simp [Nat.shiftRight_eq_div_pow]
  have hP : 2 ^ (shift + 7) = 128 * 2 ^ shift := by rw [Nat.pow_add]; omega
  have hB : (v % 128) * 2 ^ shift ≤ 127 * 2 ^ shift :=
    Nat.mul_le_mul_right _ (by omega)
  have hA : 1 * 2 ^ shift ≤ (v / 128) * 2 ^ shift :=
    Nat.mul_le_mul_right _ (by omega)
  have hsplit : v * 2 ^ shift = 128 * ((v / 128) * 2 ^ shift) + (v % 128) * 2 ^ shift := by
    conv_lhs => rw [← Nat.div_add_mod v 128]
    ring
  have hor := or_shift result (v % 128) shift hr
  rw [Nat.shiftLeft_eq] at hor
  have h128 : 2 ^ (shift + 7) < 2 ^ W := by rw [hP]; omega
  refine ⟨?_, hor, two_pow_shift_lt h128, ?_, ?_, ?_⟩
  · rw [Nat.shiftLeft_eq]
    apply Nat.mod_eq_of_lt
    omega
  · rw [hq, hP]
    have : v / 128 * (128 * 2 ^ shift) = 128 * (v / 128 * 2 ^ shift) := by ring
    omega
  · rw [hP]; omega
  · rw [hq, hP]
    have : v / 128 * (128 * 2 ^ shift) = 128 * (v / 128 * 2 ^ shift) := by ring
    omega

theorem varint_last_arith (v shift result W : Nat)
    (hW : v * 2 ^ shift < 2 ^ W) (hr : result < 2 ^ shift) :
    result ||| ((v <<< shift) % 2 ^ W) = result + v * 2 ^ shift := by
  have hor := or_shift result v shift hr
  rw [Nat.shiftLeft_eq, Nat.mod_eq_of_lt hW]
  rw [Nat.shiftLeft_eq] at hor
  exact hor

theorem GetVarint64PtrLoop_encode (v : Nat) :
    ∀ (shift result : Nat) (rest : List Nat), shift ≤ 63 → v * 2 ^ shift < 2 ^ 64 →
      result < 2 ^ shift →
      GetVarint64PtrLoop (EncodeVarint64 v ++ rest) shift result
        = some (result + v * 2 ^ shift, rest) := by
  induction v using Nat.strong_induction_on with
  | _ v ih =>
    intro shift result rest hs hW hr
    rw [EncodeVarint64]
    by_cases hv : v ≥ 128
    · obtain ⟨h1, h2, h3, h4, h5, h6⟩ := varint_step_arith v shift result 64 hv hW hr
      have hb := high_bit_set (v % 128) (Nat.mod_lt _ (by norm_num))
      have hlt : v >>> 7 < v := by
        simp only [Nat.shiftRight_eq_div_pow]; omega
      have hm : (v % 128 + 128) % 256 = v % 128 + 128 := by omega
      simp only [hv, dite_true, List.cons_append, GetVarint64PtrLoop, hs, if_true,
        or_128_mod_256, hm, hb.1, hb.2, ne_eq, not_false_eq_true, h1, h2]
      rw [ih (v >>> 7) hlt (shift + 7) _ rest (by omega) h4 h5, h6]
    · have hv2 : v < 128 := by omega
      have hm : v % 256 % 256 = v := by omega
      simp only [hv, dite_false, List.cons_append, List.nil_append, GetVarint64PtrLoop, hs,
        if_true, hm, high_bit_clear v hv2, ne_eq, not_true_eq_false, if_false,
        varint_last_arith v shift result 64 hW hr]

theorem GetVarint32PtrLoop_encode (v : Nat) :
    ∀ (shift result : Nat) (rest : List Nat), shift ≤ 28 → shift % 7 = 0 →
      v * 2 ^ shift < 2 ^ 32 → result < 2 ^ shift →
      GetVarint32PtrLoop (EncodeVarint64 v ++ rest) shift result
        = some (result + v * 2 ^ shift, rest) := by
  induction v using Nat.strong_induction_on with
  | _ v ih =>
    intro shift result rest hs h7 hW hr
    rw [EncodeVarint64]
    by_cases hv : v ≥ 128
    · obtain ⟨h1, h2, h3, h4, h5, h6⟩ := varint_step_arith v shift result 32 hv hW hr
      have hb := high_bit_set (v % 128) (Nat.mod_lt _ (by norm_num))
      have hlt : v >>> 7 < v := by
        simp only [Nat.shiftRight_eq_div_pow]; omega
      have hm : (v % 128 + 128) % 256 = v % 128 + 128 := by omega
      simp only [hv, dite_true, List.cons_append, GetVarint32PtrLoop, hs, if_true,
        or_128_mod_256, hm, hb.1, hb.2, ne_eq, not_false_eq_true, h1, h2]
      rw [ih (v >>> 7) hlt (shift + 7) _ rest (by omega) (by omega) h4 h5, h6]
    · have hv2 : v < 128 := by omega
      have hm : v % 256 % 256 = v := by omega
      simp only [hv, dite_false, List.cons_append, List.nil_append, GetVarint32PtrLoop, hs,
        if_true, hm, high_bit_clear v hv2, ne_eq, not_true_eq_false, if_false,
        varint_last_arith v shift result 32 hW hr]

theorem EncodeVarint64_lt (v : Nat) (h : v < 128) : EncodeVarint64 v = [v % 256] := by
  rw [EncodeVarint64, dif_neg (by omega)]

theorem EncodeVarint64_ge (v : Nat) (h : 128 ≤ v) :
    EncodeVarint64 v = ((v ||| 128) % 256) :: EncodeVarint64 (v / 128) := by
  rw [EncodeVarint64, dif_pos h]
  simp [Nat.shiftRight_eq_div_pow]

theorem EncodeVarint32_eq_EncodeVarint64 (v : Nat) (hv : v < 2 ^ 32) :
    EncodeVarint32 v = EncodeVarint64 v := by
  have s7 : ∀ x : Nat, x >>> 7 = x / 128 := fun x => by simp [Nat.shiftRight_eq_div_pow]
  have s14 : v >>> 14 = v / 128 / 128 := by simp [Nat.shiftRight_eq_div_pow]; omega
  have s21 : v >>> 21 = v / 128 / 128 / 128 := by simp [Nat.shiftRight_eq_div_pow]; omega
  have s28 : v >>> 28 = v / 128 / 128 / 128 / 128 := by
    simp [Nat.shiftRight_eq_div_pow]; omega
  unfold EncodeVarint32
  simp only [s7, s14, s21, s28]
  norm_num only [Nat.shiftLeft_eq, Nat.one_mul]
  by_cases h1 : v < 128
  · rw [EncodeVarint64_lt v h1, if_pos h1]
  · rw [if_neg h1, EncodeVarint64_ge v (by omega)]
    by_cases h2 : v < 16384
    · rw [if_pos h2, EncodeVarint64_lt _ (by omega)]
    · rw [if_neg h2, EncodeVarint64_ge _ (by omega)]
      by_cases h3 : v < 2097152
      · rw [if_pos h3, EncodeVarint64_lt _ (by omega)]
      · rw [if_neg h3, EncodeVarint64_ge _ (by omega)]
        by_cases h4 : v < 268435456
        · rw [if_pos h4, EncodeVarint64_lt _ (by omega)]
        · rw [if_neg h4, EncodeVarint64_ge _ (by omega), EncodeVarint64_lt _ (by omega)]

/-! ### Varint round trips -/

theorem GetVarint32PtrFallback_encode (v : Nat) (hv : v < 2 ^ 32) (rest : List Nat) :
    GetVarint32PtrFallback (EncodeVarint32 v ++ rest) = some (v, rest) := by
  unfold GetVarint32PtrFallback
  rw [EncodeVarint32_eq_EncodeVarint64 v hv,
    GetVarint32PtrLoop_encode v 0 0 rest (by norm_num) (by norm_num) (by simpa using hv)
      (by norm_num)]
  simp

/-- C2: for every 32-bit `v` and every `rest`, `GetVarint32PtrFallback` over
the bytes written by `EncodeVarint32 v` followed by `rest` succeeds with the
value `v`, and the returned pointer is exactly `len(EncodeVarint32 v)` bytes
past the start: what is left of the input is `rest`. -/
theorem varint32_round_trip (v : Nat) (hv : v < 2 ^ 32) (rest : List Nat) :
    GetVarint32PtrFallback (EncodeVarint32 v ++ rest)
        = some (v, (EncodeVarint32 v ++ rest).drop (EncodeVarint32 v).length) ∧
      (EncodeVarint32 v ++ rest).drop (EncodeVarint32 v).length = rest := by
  have hdrop : (EncodeVarint32 v ++ rest).drop (EncodeVarint32 v).length = rest :=
    List.drop_left _ _
  rw [hdrop]
  exact ⟨GetVarint32PtrFallback_encode v hv rest, rfl⟩

theorem varint32_round_trip_witness :
    (300 : Nat) < 2 ^ 32 ∧
      (GetVarint32PtrFallback (EncodeVarint32 300 ++ [7, 9])
          = some (300, (EncodeVarint32 300 ++ [7, 9]).drop (EncodeVarint32 300).length) ∧
        (EncodeVarint32 300 ++ [7, 9]).drop (EncodeVarint32 300).length = [7, 9]) :=
  ⟨by norm_num, varint32_round_trip 300 (by norm_num) [7, 9]⟩

/-- C3: for every 64-bit `v`, every destination `dst` and every `rest`,
`GetVarint64` applied to the bytes that `PutVarint64(dst, v)` appended,
followed by `rest`, returns true with the value `v` and leaves the input
equal to `rest`. -/
theorem varint64_round_trip (v : Nat) (hv : v < 2 ^ 64) (dst rest : List Nat) :
    GetVarint64 ((PutVarint64 dst v).drop dst.length ++ rest) = some (v, rest) := by
  have hdrop : (PutVarint64 dst v).drop dst.length = EncodeVarint64 v := by
    unfold PutVarint64
    exact List.drop_left _ _
  rw [hdrop]
  unfold GetVarint64 GetVarint64Ptr
  rw [GetVarint64PtrLoop_encode v 0 0 rest (by norm_num) (by simpa using hv) (by norm_num)]
  simp

theorem varint64_round_trip_witness :
    (2 ^ 63 + 5 : Nat) < 2 ^ 64 ∧
      GetVarint64 ((PutVarint64 [1, 2] (2 ^ 63 + 5)).drop [1, 2].length ++ [200])
        = some (2 ^ 63 + 5, [200]) :=
  ⟨by norm_num, varint64_round_trip (2 ^ 63 + 5) (by norm_num) [1, 2] [200]⟩

/-! ### The log writer -/

theorem appendedLength_append (a b : List Event) :
    appendedLength (a ++ b) = appendedLength a + appendedLength b := by
  induction a with
  | nil => simp [appendedLength]
  | cons e a ih =>
    cases e with
    | append data s => simp [appendedLength, ih]; omega
    | emit t ptr length => simp [appendedLength, ih]
    | flush s => simp [appendedLength, ih]

theorem switchBlock_block_offset {σ : Type} (F : WritableFile σ) (w : Writer σ) :
    (switchBlock F w).1.block_offset_
      = if kBlockSize - w.block_offset_ < kHeaderSize then 0 else w.block_offset_ := by
  unfold switchBlock
  by_cases h1 : kBlockSize - w.block_offset_ < kHeaderSize
  · by_cases h2 : kBlockSize - w.block_offset_ > 0 <;> simp [h1, h2]
  · simp [h1]

theorem EmitPhysicalRecord_block_offset {σ : Type} (F : WritableFile σ) (C : Crc32c)
    (mem : Nat → Nat) (w : Writer σ) (t : RecordType) (ptr length : Nat) :
    (EmitPhysicalRecord F C mem w t ptr length).1.block_offset_
      = w.block_offset_ + kHeaderSize + length := by
  unfold EmitPhysicalRecord
  simp only []
  split
  · split <;> rfl
  · rfl

theorem availAt_after_zero (b : Int) (h : availAt b = 0) :
    availAt ((if kBlockSize - b < kHeaderSize then 0 else b) + kHeaderSize + (0 : Nat)) ≠ 0 := by
  unfold availAt kBlockSize kHeaderSize at *
  split_ifs at * <;> omega

/-- The loop of `AddRecord` ends within the iterations it is given: each
iteration either consumes a byte of the record or is followed by one that
does. -/
theorem AddRecordLoop_returns {σ : Type} (F : WritableFile σ) (C : Crc32c) (mem : Nat → Nat) :
    ∀ (fuel : Nat) (w : Writer σ) (ptr left : Nat) (begin_ : Bool),
      2 * left + (if availAt w.block_offset_ = 0 then 2 else 1) ≤ fuel →
      ∃ r, AddRecordLoop F C mem fuel w ptr left begin_ = some r := by
  intro fuel
  induction fuel with
  | zero =>
    intro w ptr left begin_ h
    split_ifs at h <;> omega
  | succ fuel ih =>
    intro w ptr left begin_ h
    simp only [AddRecordLoop]
    have havail : ((kBlockSize - (switchBlock F w).1.block_offset_ - kHeaderSize) % 2 ^ 64).toNat
        = availAt w.block_offset_ := by
      rw [switchBlock_block_offset]; rfl
    rw [havail]
    by_cases hc : ((EmitPhysicalRecord F C mem (switchBlock F w).1
        (chooseType begin_ (decide (left =
          if left < availAt w.block_offset_ then left else availAt w.block_offset_)))
        (ptr + if left < availAt w.block_offset_ then left else availAt w.block_offset_)
        (if left < availAt w.block_offset_ then left else availAt w.block_offset_)).2.1.ok
        && decide (left - (if left < availAt w.block_offset_ then left
          else availAt w.block_offset_) > 0)) = true
    · rw [if_pos hc]
      simp only [Bool.and_eq_true, decide_eq_true_eq] at hc
      have hfl : (if left < availAt w.block_offset_ then left else availAt w.block_offset_)
          = availAt w.block_offset_ := by
        split_ifs with hl
        · rw [if_pos hl] at hc; omega
        · rfl
      rw [hfl] at hc ⊢
      have hnext : 2 * (left - availAt w.block_offset_) +
          (if availAt (EmitPhysicalRecord F C mem (switchBlock F w).1 (chooseType begin_
              (decide (left = availAt w.block_offset_))) (ptr + availAt w.block_offset_)
              (availAt w.block_offset_)).1.block_offset_ = 0 then 2 else 1) ≤ fuel := by
        rw [EmitPhysicalRecord_block_offset, switchBlock_block_offset]
        by_cases h0 : availAt w.block_offset_ = 0
        · have := availAt_after_zero w.block_offset_ h0
          rw [h0, if_neg this]
          rw [if_pos h0] at h
          omega
        · split_ifs <;> split_ifs at h <;> omega
      obtain ⟨r2, hr2⟩ := ih _ (ptr + availAt w.block_offset_) (left - availAt w.block_offset_)
        false hnext
      rw [hr2]
      exact ⟨_, rfl⟩
    · rw [if_neg hc]
      exact ⟨_, rfl⟩

theorem AddRecord_returns {σ : Type} (F : WritableFile σ) (C : Crc32c) (mem : Nat → Nat)
    (w : Writer σ) (slice : Slice) : ∃ r, AddRecord F C mem w slice = some r := by
  unfold AddRecord
  apply AddRecordLoop_returns
  split_ifs <;> omega

theorem readBytes_length (mem : Nat → Nat) (p n : Nat) : (readBytes mem p n).length = n := by
  simp [readBytes]

theorem EmitPhysicalRecord_events {σ : Type} (F : WritableFile σ) (C : Crc32c)
    (mem : Nat → Nat) (hA : ∀ s d, (F.Append s d).2.ok = true)
    (w : Writer σ) (t : RecordType) (ptr length : Nat) :
    ∃ hdr s1 s2 s3, hdr.length = 7 ∧
      (EmitPhysicalRecord F C mem w t ptr length).2.2
        = [Event.emit t ptr length, Event.append hdr s1,
            Event.append (readBytes mem ptr length) s2, Event.flush s3] := by
  unfold EmitPhysicalRecord
  simp only [hA, if_true]
  exact ⟨_, _, _, _, by simp [EncodeFixed32], rfl⟩

theorem framed_record (pos : Nat) (t : RecordType) (ptr length : Nat) (hdr payload : List Nat)
    (s1 s2 s3 : Status) (rest : List Event) (h1 : hdr.length = 7)
    (h2 : payload.length = length) (h3 : length ≤ 0xffff)
    (h4 : pos % 32768 + 7 + length ≤ 32768) :
    framed pos ([Event.emit t ptr length, Event.append hdr s1, Event.append payload s2,
        Event.flush s3] ++ rest) = framed (pos + 7 + length) rest := by
  simp [framed, h1, h2, h3, h4]

theorem switchBlock_framed {σ : Type} (F : WritableFile σ) (w : Writer σ) (pos : Nat)
    (rest : List Event) (h0 : 0 ≤ w.block_offset_) (h1 : w.block_offset_ ≤ 32768)
    (hpos : (pos : Int) % 32768 = w.block_offset_ % 32768) :
    framed pos ((switchBlock F w).2 ++ rest)
        = framed (pos + appendedLength (switchBlock F w).2) rest ∧
      0 ≤ (switchBlock F w).1.block_offset_ ∧ (switchBlock F w).1.block_offset_ ≤ 32761 ∧
      ((pos + appendedLength (switchBlock F w).2 : Nat) : Int) % 32768
        = (switchBlock F w).1.block_offset_ := by
  unfold switchBlock kBlockSize kHeaderSize
  by_cases c1 : (32768 : Int) - w.block_offset_ < 7
  · by_cases c2 : (32768 : Int) - w.block_offset_ > 0
    · simp only [c1, c2, if_true, List.singleton_append, appendedLength, List.length_replicate,
        Nat.add_zero]
      have hlen : ((32768 : Int) - w.block_offset_).toNat ≤ 6 := by omega
      have hp : pos % 32768 + ((32768 : Int) - w.block_offset_).toNat = 32768 := by omega
      refine ⟨?_, le_refl _, by norm_num, by omega⟩
      simp [framed, hlen, hp]
    · simp only [c1, c2, if_true, if_false, List.nil_append, appendedLength, Nat.add_zero]
      exact ⟨trivial, le_refl _, by norm_num, by omega⟩
  · simp only [c1, if_false, List.nil_append, appendedLength, Nat.add_zero]
    exact ⟨trivial, h0, by omega, by omega⟩

/-- One run of the loop of `AddRecord` over a destination whose `Append`s
succeed keeps the framing: started at a file position that agrees with
`block_offset_`, what it writes is framed, and the position after it agrees
with the new `block_offset_`. -/
theorem AddRecordLoop_framed {σ : Type} (F : WritableFile σ) (C : Crc32c) (mem : Nat → Nat)
    (hA : ∀ s d, (F.Append s d).2.ok = true) :
    ∀ (fuel : Nat) (w : Writer σ) (ptr left : Nat) (begin_ : Bool) (pos : Nat)
      (r : Writer σ × Status × List Event) (rest : List Event),
      0 ≤ w.block_offset_ → w.block_offset_ ≤ 32768 →
      (pos : Int) % 32768 = w.block_offset_ % 32768 →
      AddRecordLoop F C mem fuel w ptr left begin_ = some r →
      framed pos (r.2.2 ++ rest) = framed (pos + appendedLength r.2.2) rest ∧
        0 ≤ r.1.block_offset_ ∧ r.1.block_offset_ ≤ 32768 ∧
        ((pos + appendedLength r.2.2 : Nat) : Int) % 32768 = r.1.block_offset_ % 32768 := by
  intro fuel
  induction fuel with
  | zero =>
    intro w ptr left begin_ pos r rest _ _ _ h
    simp [AddRecordLoop] at h
  | succ fuel ih =>
    intro w ptr left begin_ pos r rest h0 h1 hpos h
    simp only [AddRecordLoop] at h
    have hsw := fun X => switchBlock_framed F w pos X h0 h1 hpos
    obtain ⟨_, hs0, hs1, hspos⟩ := hsw []
    generalize hfl : (if left < ((kBlockSize - (switchBlock F w).1.block_offset_ - kHeaderSize)
      % 2 ^ 64).toNat then left
      else ((kBlockSize - (switchBlock F w).1.block_offset_ - kHeaderSize) % 2 ^ 64).toNat) = fl
      at h
    have hle : (fl : Int) ≤ 32761 - (switchBlock F w).1.block_offset_ := by
      rw [← hfl]; unfold kBlockSize kHeaderSize; split_ifs <;> omega
    obtain ⟨hdr, s1, s2, s3, hh, hev⟩ := EmitPhysicalRecord_events F C mem hA
      (switchBlock F w).1 (chooseType begin_ (decide (left = fl))) (ptr + fl) fl
    have hbo := EmitPhysicalRecord_block_offset F C mem (switchBlock F w).1
      (chooseType begin_ (decide (left = fl))) (ptr + fl) fl
    generalize EmitPhysicalRecord F C mem (switchBlock F w).1
      (chooseType begin_ (decide (left = fl))) (ptr + fl) fl = E at h hev hbo
    unfold kHeaderSize at hbo
    have hEl : appendedLength E.2.2 = 7 + fl := by
      rw [hev]; simp [appendedLength, hh, readBytes_length]
    have hrec : ∀ X, framed (pos + appendedLength (switchBlock F w).2) (E.2.2 ++ X)
        = framed (pos + appendedLength (switchBlock F w).2 + 7 + fl) X := by
      intro X
      rw [hev]
      exact framed_record _ _ _ _ _ _ _ _ _ _ hh (readBytes_length _ _ _) (by omega) (by omega)
    generalize switchBlock F w = sw at *
    by_cases hc : (E.2.1.ok && decide (left - fl > 0)) = true
    · rw [if_pos hc] at h
      cases hr2 : AddRecordLoop F C mem fuel E.1 (ptr + fl) (left - fl) false with
      | none => rw [hr2] at h; simp at h
      | some r2 =>
        rw [hr2] at h
        simp only [Option.some.injEq] at h
        subst h
        obtain ⟨g1, g2, g3, g4⟩ := ih E.1 (ptr + fl) (left - fl) false
          (pos + appendedLength sw.2 + 7 + fl) r2 rest (by omega) (by omega) (by omega) hr2
        simp only [appendedLength_append, hEl, List.append_assoc]
        rw [(hsw _).1, hrec, g1]
        refine ⟨?_, g2, g3, ?_⟩
        · congr 1; omega
        · rw [← g4]; congr 2; omega
    · rw [if_neg hc] at h
      simp only [Option.some.injEq] at h
      subst h
      simp only [appendedLength_append, hEl, List.append_assoc]
      rw [(hsw _).1, hrec]
      refine ⟨?_, by omega, by omega, by omega⟩
      congr 1; omega

theorem AddRecords_framed {σ : Type} (F : WritableFile σ) (C : Crc32c) (mem : Nat → Nat)
    (hA : ∀ s d, (F.Append s d).2.ok = true) :
    ∀ (slices : List Slice) (w : Writer σ) (pos : Nat),
      0 ≤ w.block_offset_ → w.block_offset_ ≤ 32768 →
      (pos : Int) % 32768 = w.block_offset_ % 32768 →
      ∃ r, AddRecords F C mem w slices = some r ∧
        ∀ rest, framed pos (r.2 ++ rest) = framed (pos + appendedLength r.2) rest := by
  intro slices
  induction slices with
  | nil =>
    intro w pos _ _ _
    exact ⟨_, rfl, fun rest => by simp [appendedLength]⟩
  | cons slice slices ih =>
    intro w pos h0 h1 hpos
    obtain ⟨r, hr⟩ := AddRecord_returns F C mem w slice
    have hfr := fun X => AddRecordLoop_framed F C mem hA _ w slice.data_ slice.size_ true pos r X
      h0 h1 hpos hr
    obtain ⟨_, g2, g3, g4⟩ := hfr []
    obtain ⟨r2, hr2, hframed⟩ := ih r.1 (pos + appendedLength r.2.2) g2 g3 g4
    refine ⟨(r2.1, r.2.2 ++ r2.2), ?_, fun rest => ?_⟩
    · simp only [AddRecords, hr, hr2]
    · simp only [List.append_assoc, appendedLength_append]
      rw [(hfr _).1, hframed rest]
      congr 1; omega

/-- C7: for a writer constructed with `dest_length = L` over a destination
whose `Append`s all succeed, any sequence of `AddRecord` calls returns, and
what it writes from file position `L` on is framed: every physical record is
a 7-byte header and a payload of length at most 0xffff that starts at a
position `p` with `p mod 32768 + 7 + len <= 32768`, and every other byte
written is a zero byte among the last at most 6 bytes of a block. -/
theorem no_record_spans_block {σ : Type} (F : WritableFile σ) (C : Crc32c) (mem : Nat → Nat)
    (hA : ∀ s d, (F.Append s d).2.ok = true) (dest : σ) (L : Nat) (slices : List Slice) :
    ∃ r, AddRecords F C mem (Writer.createAt dest L) slices = some r ∧
      framed L r.2 = true := by
  have h0 : 0 ≤ (Writer.createAt dest L).block_offset_ := by
    unfold Writer.createAt kBlockSize; simp only; omega
  have h1 : (Writer.createAt dest L).block_offset_ ≤ 32768 := by
    unfold Writer.createAt kBlockSize; simp only; omega
  have hpos : (L : Int) % 32768 = (Writer.createAt dest L).block_offset_ % 32768 := by
    unfold Writer.createAt kBlockSize; simp only; omega
  obtain ⟨r, hr, hframed⟩ := AddRecords_framed F C mem hA slices _ L h0 h1 hpos
  refine ⟨r, hr, ?_⟩
  have := hframed []
  rw [List.append_nil] at this
  rw [this]
  rfl

theorem no_record_spans_block_witness :
    (∀ s d, (memFile.Append s d).2.ok = true) ∧
    ∃ r, AddRecords memFile zeroCrc (memOf [1, 2, 3]) (Writer.createAt [] 32765)
        [⟨0, 3⟩, ⟨1, 0⟩] = some r ∧ framed 32765 r.2 = true :=
  ⟨fun _ _ => rfl,
    no_record_spans_block memFile zeroCrc (memOf [1, 2, 3]) (fun _ _ => rfl) [] 32765
      [⟨0, 3⟩, ⟨1, 0⟩]⟩

/-- C1, the code at the failing input: a slice over the first two bytes
`"ab"` of the buffer `"abcd"`, added to a fresh writer over a destination that
never fails. `AddRecord` advances `ptr` before it calls `EmitPhysicalRecord`,
so the single `Full` record carries the two bytes after the slice, `"cd"`,
and these are the bytes that reach the file; the record is `"ab"`. -/
theorem AddRecord_emits_bytes_after_fragment :
    (AddRecord memFile zeroCrc (memOf [97, 98, 99, 100]) (Writer.create []) ⟨0, 2⟩).map
        (fun r => (r.2.1, emittedTypes r.2.2,
          emittedPayloads (memOf [97, 98, 99, 100]) r.2.2, r.1.dest_))
      = some (Status.OK, [RecordType.kFullType], [99, 100], [0, 0, 0, 0, 2, 0, 1, 99, 100]) ∧
    readBytes (memOf [97, 98, 99, 100]) 0 2 = [97, 98] := by
  decide

/-- C8, the code at the failing input: a writer resumed at file length 32765
(three bytes left in the block) over a destination whose first call fails.
The padding `Append` fails, its status is dropped, the three calls of
`EmitPhysicalRecord` succeed and `AddRecord` returns OK. -/
theorem AddRecord_ok_after_failed_padding :
    (AddRecord failFirstFile zeroCrc (memOf []) (Writer.createAt 0 32765) ⟨0, 0⟩).map
        (fun r => (r.2.1, ioStatuses r.2.2, r.1.block_offset_))
      = some (Status.OK, [Status.Error 1, Status.OK, Status.OK, Status.OK], 7) := by
  decide

/-! ### The filter block on small inputs -/

theorem StartBlockLoop_done (P : FilterPolicy) (filter_index : Nat) (b : FilterBlockBuilder)
    (h : ¬ filter_index > b.filter_offsets_.length) : StartBlockLoop P filter_index b = b := by
  rw [StartBlockLoop, if_neg h]

theorem StartBlockLoop_step (P : FilterPolicy) (filter_index : Nat) (b : FilterBlockBuilder)
    (h : filter_index > b.filter_offsets_.length) :
    StartBlockLoop P filter_index b = StartBlockLoop P filter_index (GenerateFilter P b) := by
  rw [StartBlockLoop, if_pos h]

theorem Finish_StartBlock_zero (P : FilterPolicy) :
    FilterBlockBuilder.Finish P (StartBlock P FilterBlockBuilder.create 0) = [0, 0, 0, 0, 11] := by
  have h : StartBlock P FilterBlockBuilder.create 0 = FilterBlockBuilder.create := by
    unfold StartBlock
    apply StartBlockLoop_done
    simp [FilterBlockBuilder.create]
  rw [h]
  simp [FilterBlockBuilder.Finish, FilterBlockBuilder.create, PutFixed32, EncodeFixed32,
    kFilterBaseLg]

/-- C9 as stated fails: after `StartBlock(0)` and `Finish` with no key the
reader does not see one segment, and `KeyMayMatch(0, key)` is not false. -/
theorem empty_builder_one_segment_fails :
    ¬ (∀ (P : FilterPolicy) (key : List Nat),
        (FilterBlockReader.create P
            (FilterBlockBuilder.Finish P (StartBlock P FilterBlockBuilder.create 0))).num_ = 1 ∧
          (FilterBlockReader.create P
            (FilterBlockBuilder.Finish P (StartBlock P FilterBlockBuilder.create 0))).KeyMayMatch
              0 key = false) := by
  intro h
  have h1 := (h alwaysMatch []).1
  rw [Finish_StartBlock_zero] at h1
  simp [FilterBlockReader.create, DecodeFixed32] at h1

/-- C9 as amended: for every policy, `StartBlock(0)` then `Finish` on a fresh
builder with no `AddKey` gives the 5-byte block `00 00 00 00 0b`; the reader
built over it sees no segment (`num_ = 0`, array offset 0, `base_lg_ = 11`)
and `KeyMayMatch(0, key)` returns true for every key. -/
theorem empty_builder_no_segment (P : FilterPolicy) (key : List Nat) :
    FilterBlockBuilder.Finish P (StartBlock P FilterBlockBuilder.create 0) = [0, 0, 0, 0, 11] ∧
      (FilterBlockReader.create P
        (FilterBlockBuilder.Finish P (StartBlock P FilterBlockBuilder.create 0))).num_ = 0 ∧
      (FilterBlockReader.create P
        (FilterBlockBuilder.Finish P (StartBlock P FilterBlockBuilder.create 0))).offset_ = 0 ∧
      (FilterBlockReader.create P
        (FilterBlockBuilder.Finish P (StartBlock P FilterBlockBuilder.create 0))).base_lg_ = 11 ∧
      (FilterBlockReader.create P
        (FilterBlockBuilder.Finish P (StartBlock P FilterBlockBuilder.create 0))).KeyMayMatch
          0 key = true := by
  rw [Finish_StartBlock_zero]
  simp [FilterBlockReader.create, FilterBlockReader.KeyMayMatch, DecodeFixed32]

theorem Finish_StartBlock_3000 (P : FilterPolicy) :
    FilterBlockBuilder.Finish P (StartBlock P FilterBlockBuilder.create 3000)
      = [0, 0, 0, 0, 0, 0, 0, 0, 11] := by
  have h : StartBlock P FilterBlockBuilder.create 3000
      = ⟨[], [], [], [0]⟩ := by
    unfold StartBlock
    rw [StartBlockLoop_step _ _ _ (by simp [FilterBlockBuilder.create, kFilterBase,
      kFilterBaseLg])]
    apply StartBlockLoop_done
    simp [FilterBlockBuilder.create, GenerateFilter, kFilterBase, kFilterBaseLg]
  rw [h]
  simp [FilterBlockBuilder.Finish, PutFixed32, EncodeFixed32, kFilterBaseLg]

/-- C10 as stated fails: the block that `StartBlock(3000)`, `Finish` produces
is accepted and has one segment, with `start = limit = 0`. The test
`start <= limit && limit <= offset_ - data_` comes first and holds, so the
reader hands the empty filter to the policy and returns its answer: true, for
a policy that answers true. -/
theorem empty_segment_asks_policy :
    FilterBlockBuilder.Finish alwaysMatch (StartBlock alwaysMatch FilterBlockBuilder.create 3000)
        = [0, 0, 0, 0, 0, 0, 0, 0, 11] ∧
      (FilterBlockReader.create alwaysMatch [0, 0, 0, 0, 0, 0, 0, 0, 11]).num_ = 1 ∧
      DecodeFixed32 [0, 0, 0, 0, 0, 0, 0, 0, 11] 0 = DecodeFixed32 [0, 0, 0, 0, 0, 0, 0, 0, 11] 4 ∧
      (FilterBlockReader.create alwaysMatch [0, 0, 0, 0, 0, 0, 0, 0, 11]).KeyMayMatch 0 [120]
        = true :=
  ⟨Finish_StartBlock_3000 alwaysMatch,
    by simp [FilterBlockReader.create, DecodeFixed32],
    by simp [DecodeFixed32],
    by simp [FilterBlockReader.create, FilterBlockReader.KeyMayMatch, DecodeFixed32, alwaysMatch]⟩

/-! ### The data block -/

theorem EncodeFixed32_length (v : Nat) : (EncodeFixed32 v).length = 4 := rfl

theorem getD_append_add (pre l : List Nat) (i d : Nat) :
    (pre ++ l).getD (pre.length + i) d = l.getD i d := by
  induction pre with
  | nil => simp
  | cons a pre ih =>
    have e : (a :: pre).length + i = (pre.length + i) + 1 := by simp; omega
    rw [e]
    simpa using ih

theorem DecodeFixed32_append (pre l : List Nat) (i : Nat) :
    DecodeFixed32 (pre ++ l) (pre.length + i) = DecodeFixed32 l i := by
  unfold DecodeFixed32
  rw [show pre.length + i + 1 = pre.length + (i + 1) by omega,
    show pre.length + i + 2 = pre.length + (i + 2) by omega,
    show pre.length + i + 3 = pre.length + (i + 3) by omega,
    getD_append_add, getD_append_add, getD_append_add, getD_append_add]

theorem DecodeFixed32_encode (pre post : List Nat) (v : Nat) :
    DecodeFixed32 (pre ++ EncodeFixed32 v ++ post) pre.length = v % 2 ^ 32 := by
  have h := DecodeFixed32_append pre (EncodeFixed32 v ++ post) 0
  rw [Nat.add_zero, ← List.append_assoc] at h
  rw [h]
  simp only [DecodeFixed32, EncodeFixed32, List.cons_append, List.getD_cons_zero,
    List.getD_cons_succ, Nat.shiftRight_eq_div_pow]
  omega

theorem sharedLoop_spec : ∀ (last key : List Nat) (s : Nat),
    s ≤ sharedLoop last key s ∧
      sharedLoop last key s - s ≤ last.length ∧ sharedLoop last key s - s ≤ key.length ∧
      last.take (sharedLoop last key s - s) = key.take (sharedLoop last key s - s) := by
  intro last
  induction last with
  | nil => intro key s; simp [sharedLoop]
  | cons a last ih =>
    intro key s
    cases key with
    | nil => simp [sharedLoop]
    | cons c key =>
      simp only [sharedLoop]
      by_cases hac : a = c
      · simp only [hac, if_true]
        obtain ⟨h1, h2, h3, h4⟩ := ih key (s + 1)
        have e : sharedLoop last key (s + 1) - s = (sharedLoop last key (s + 1) - (s + 1)) + 1 := by
          omega
        refine ⟨by omega, ?_, ?_, ?_⟩
        · simp only [List.length_cons]; omega
        · simp only [List.length_cons]; omega
        · rw [e, List.take_succ_cons, List.take_succ_cons, h4]
      · simp [hac]

theorem EncodeVarint32_ne_nil (v : Nat) : EncodeVarint32 v ≠ [] := by
  unfold EncodeVarint32
  simp only
  split_ifs <;> simp

theorem EncodeVarint32_length_pos (v : Nat) : 1 ≤ (EncodeVarint32 v).length := by
  have := EncodeVarint32_ne_nil v
  cases h : EncodeVarint32 v with
  | nil => exact absurd h this
  | cons a l => simp

theorem Add_buffer (b : BlockBuilder) (key value : List Nat) :
    (Add b key value).buffer_ = b.buffer_ ++ entryBytes (sharedOf b key) key value := by
  simp only [Add, PutVarint32, entryBytes, sharedOf, List.append_assoc]

theorem sharedOf_spec (b : BlockBuilder) (key : List Nat) :
    sharedOf b key ≤ b.last_key_.length ∧ sharedOf b key ≤ key.length ∧
      b.last_key_.take (sharedOf b key) = key.take (sharedOf b key) := by
  unfold sharedOf
  by_cases h : b.counter_ < b.options_.block_restart_interval
  · have := sharedLoop_spec b.last_key_ key 0
    simpa [h] using this.2
  · simp [h]

theorem Add_last_key (b : BlockBuilder) (key value : List Nat) :
    (Add b key value).last_key_ = key := by
  obtain ⟨h1, h2, h3⟩ := sharedOf_spec b key
  have e : (Add b key value).last_key_
      = resize b.last_key_ (sharedOf b key)
        ++ (key.drop (sharedOf b key)).take (key.length - sharedOf b key) := by
    simp only [Add, sharedOf]
  rw [e]
  unfold resize
  have ht : (key.drop (sharedOf b key)).take (key.length - sharedOf b key)
      = key.drop (sharedOf b key) := List.take_of_length_le (by simp)
  rw [h3, Nat.sub_eq_zero_of_le h1, ht, List.replicate_zero, List.append_nil,
    List.take_append_drop]

theorem decodeEntries_entry (fuel : Nat) (prev key value rest : List Nat) (shared : Nat)
    (h1 : shared ≤ prev.length) (h2 : shared ≤ key.length)
    (h3 : prev.take shared = key.take shared)
    (hk : key.length < 2 ^ 32) (hv : value.length < 2 ^ 32) :
    decodeEntries (fuel + 1) prev (entryBytes shared key value ++ rest)
      = match decodeEntries fuel key rest with
        | none => none
        | some l => some ((key, value) :: l) := by
  have e1 : shared % 2 ^ 32 = shared := Nat.mod_eq_of_lt (by omega)
  have e2 : (key.length - shared) % 2 ^ 32 = key.length - shared := Nat.mod_eq_of_lt (by omega)
  have e3 : value.length % 2 ^ 32 = value.length := Nat.mod_eq_of_lt hv
  have hne : (entryBytes shared key value ++ rest).isEmpty = false := by
    unfold entryBytes
    have := EncodeVarint32_length_pos (shared % 2 ^ 32)
    cases h : EncodeVarint32 (shared % 2 ^ 32) with
    | nil => rw [h] at this; simp at this
    | cons a l => simp
  have htake : (key.drop shared).take (key.length - shared) = key.drop shared := by
    apply List.take_of_length_le
    simp
  simp only [decodeEntries, hne, Bool.false_eq_true, if_false]
  unfold entryBytes
  rw [e1, e2, e3, htake]
  simp only [List.append_assoc]
  rw [GetVarint32PtrFallback_encode shared (by omega)]
  simp only []
  rw [GetVarint32PtrFallback_encode _ (by omega)]
  simp only []
  rw [GetVarint32PtrFallback_encode _ hv]
  simp only []
  have hlen : ¬ ((key.drop shared ++ (value ++ rest)).length < key.length - shared + value.length
      ∨ prev.length < shared) := by
    simp only [List.length_append, List.length_drop]
    omega
  rw [if_neg hlen]
  have hA : (key.drop shared).length = key.length - shared := by simp
  have hkey : prev.take shared ++ (key.drop shared ++ (value ++ rest)).take (key.length - shared)
      = key := by
    rw [h3, List.take_left' hA]
    exact List.take_append_drop _ _
  have hval : ((key.drop shared ++ (value ++ rest)).drop (key.length - shared)).take value.length
      = value := by
    rw [List.drop_left' hA, List.take_left' rfl]
  have hrest : (key.drop shared ++ (value ++ rest)).drop (key.length - shared + value.length)
      = rest := by
    rw [← List.append_assoc]
    exact List.drop_left' (by simp)
  rw [hkey, hval, hrest]

theorem entryBytes_length_pos (shared : Nat) (key value : List Nat) :
    1 ≤ (entryBytes shared key value).length := by
  unfold entryBytes
  have := EncodeVarint32_length_pos (shared % 2 ^ 32)
  simp only [List.length_append]
  omega

/-- What a sequence of `Add` calls appends to `buffer_` decodes, entry by
entry, to the pairs added. -/
theorem AddAll_decode : ∀ (kvs : List (List Nat × List Nat)) (b : BlockBuilder),
    (∀ kv ∈ kvs, kv.1.length < 2 ^ 32 ∧ kv.2.length < 2 ^ 32) →
    ∃ data, (AddAll b kvs).buffer_ = b.buffer_ ++ data ∧ kvs.length ≤ data.length ∧
      ∀ fuel, kvs.length ≤ fuel → decodeEntries fuel b.last_key_ data = some kvs := by
  intro kvs
  induction kvs with
  | nil =>
    intro b _
    refine ⟨[], by simp [AddAll], by simp, fun fuel _ => ?_⟩
    cases fuel <;> simp [decodeEntries]
  | cons kv kvs ih =>
    intro b hlen
    obtain ⟨data, hd1, hd2, hd3⟩ := ih (Add b kv.1 kv.2)
      (fun x hx => hlen x (List.mem_cons_of_mem _ hx))
    obtain ⟨hk, hv⟩ := hlen kv (List.mem_cons_self _ _)
    obtain ⟨s1, s2, s3⟩ := sharedOf_spec b kv.1
    refine ⟨entryBytes (sharedOf b kv.1) kv.1 kv.2 ++ data, ?_, ?_, fun fuel hfuel => ?_⟩
    · rw [AddAll, hd1, Add_buffer, List.append_assoc]
    · have := entryBytes_length_pos (sharedOf b kv.1) kv.1 kv.2
      simp only [List.length_cons, List.length_append]
      omega
    · cases fuel with
      | zero => simp at hfuel
      | succ fuel =>
        rw [decodeEntries_entry fuel b.last_key_ kv.1 kv.2 data _ s1 s2 s3 hk hv]
        have := hd3 fuel (by simpa using hfuel)
        rw [Add_last_key] at this
        rw [this]

theorem foldl_PutFixed32 : ∀ (l acc : List Nat),
    ∃ R, l.foldl (fun acc r => PutFixed32 acc r) acc = acc ++ R ∧ R.length = 4 * l.length := by
  intro l
  induction l with
  | nil => intro acc; exact ⟨[], by simp, by simp⟩
  | cons r l ih =>
    intro acc
    obtain ⟨R, h1, h2⟩ := ih (PutFixed32 acc r)
    refine ⟨EncodeFixed32 r ++ R, ?_, ?_⟩
    · rw [List.foldl_cons, h1, PutFixed32, List.append_assoc]
    · simp only [List.length_append, EncodeFixed32_length, List.length_cons, h2]
      omega

theorem Finish_bytes (b : BlockBuilder) :
    ∃ R, (Finish b).2 = b.buffer_ ++ R ++ EncodeFixed32 (b.restarts_.length % 2 ^ 32) ∧
      R.length = 4 * b.restarts_.length := by
  obtain ⟨R, h1, h2⟩ := foldl_PutFixed32 b.restarts_ b.buffer_
  refine ⟨R, ?_, h2⟩
  show PutFixed32 (b.restarts_.foldl (fun acc r => PutFixed32 acc r) b.buffer_)
    (b.restarts_.length % 2 ^ 32) = _
  rw [h1, PutFixed32]

theorem decodeBlock_Finish (b : BlockBuilder) (h : (Finish b).2.length < 2 ^ 32) :
    decodeBlock (Finish b).2 = decodeEntries b.buffer_.length [] b.buffer_ := by
  obtain ⟨R, h1, h2⟩ := Finish_bytes b
  rw [h1] at h ⊢
  simp only [List.length_append, EncodeFixed32_length] at h
  have hk : b.restarts_.length % 2 ^ 32 = b.restarts_.length := Nat.mod_eq_of_lt (by omega)
  rw [hk]
  have hdec : DecodeFixed32 (b.buffer_ ++ R ++ EncodeFixed32 b.restarts_.length)
      ((b.buffer_ ++ R ++ EncodeFixed32 b.restarts_.length).length - 4) = b.restarts_.length := by
    have := DecodeFixed32_encode (b.buffer_ ++ R) [] b.restarts_.length
    rw [List.append_nil] at this
    have e : (b.buffer_ ++ R ++ EncodeFixed32 b.restarts_.length).length - 4
        = (b.buffer_ ++ R).length := by
      simp only [List.length_append, EncodeFixed32_length]; omega
    rw [e, this]
    exact Nat.mod_eq_of_lt (by omega)
  unfold decodeBlock
  simp only [hdec]
  have hn : (b.buffer_ ++ R ++ EncodeFixed32 b.restarts_.length).length
      = b.buffer_.length + 4 * b.restarts_.length + 4 := by
    simp only [List.length_append, EncodeFixed32_length, h2]
  rw [hn, if_neg (by omega), if_neg (by omega)]
  have ht : (b.buffer_ ++ R ++ EncodeFixed32 b.restarts_.length).take
      (b.buffer_.length + 4 * b.restarts_.length + 4 - 4 - 4 * b.restarts_.length)
      = b.buffer_ := by
    rw [List.append_assoc]
    exact List.take_left' (by omega)
  rw [ht]

theorem Add_fields (b : BlockBuilder) (key value : List Nat) :
    (Add b key value).options_ = b.options_ ∧ (Add b key value).finished_ = b.finished_ ∧
      (Add b key value).counter_
        = (if ¬ (b.counter_ < b.options_.block_restart_interval) then 0 else b.counter_) + 1 ∧
      (Add b key value).buffer_ ≠ [] := by
  refine ⟨rfl, rfl, rfl, ?_⟩
  rw [Add_buffer]
  have := entryBytes_length_pos (sharedOf b key) key value
  intro h
  have h' := congrArg List.length h
  simp only [List.length_append, List.length_nil] at h'
  omega

theorem AddAllAsserts_sorted : ∀ (kvs : List (List Nat × List Nat)) (b : BlockBuilder),
    b.finished_ = false → b.counter_ ≤ b.options_.block_restart_interval →
    1 ≤ b.options_.block_restart_interval →
    (∀ kv, kvs.head? = some kv → b.buffer_ = [] ∨ b.options_.Compare kv.1 b.last_key_ > 0) →
    List.Chain' (fun a c => b.options_.Compare c.1 a.1 > 0) kvs →
    AddAllAsserts b kvs = true := by
  intro kvs
  induction kvs with
  | nil => intro b _ _ _ _ _; rfl
  | cons kv kvs ih =>
    intro b hf hc hK hfirst hchain
    obtain ⟨fo, ff, fc, fb⟩ := Add_fields b kv.1 kv.2
    have hassert : AddAsserts b kv.1 = true := by
      unfold AddAsserts
      rcases hfirst kv rfl with h | h
      · simp [hf, hc, h]
      · simp [hf, hc, h]
    have hnext := ih (Add b kv.1 kv.2) (by rw [ff, hf])
      (by rw [fc, fo]; split_ifs <;> omega) (by rw [fo]; exact hK)
      (fun kv2 h2 => by
        right
        rw [fo, Add_last_key]
        cases kvs with
        | nil => simp at h2
        | cons x xs =>
          simp only [List.head?_cons, Option.some.injEq] at h2
          subst h2
          exact (List.chain'_cons.mp hchain).1)
      (by rw [fo]; exact (List.chain'_cons'.mp hchain).2)
    simp only [AddAllAsserts, hassert, hnext, Bool.and_self]

/-- C4: for every `block_restart_interval >= 1` and every sequence of
key/value pairs with strictly increasing keys (under the comparator of the
options) added to a fresh builder, all lengths and the finished block below
2^32: every assertion of `Add` holds, and decoding the bytes returned by
`Finish` (restart count from the last 4 bytes, restart array skipped, data
region parsed entry by entry, each key rebuilt from the previous one) gives
back exactly the pairs added, in order, consuming the data region exactly. -/
theorem block_round_trip (options : Options) (kvs : List (List Nat × List Nat))
    (hK : 1 ≤ options.block_restart_interval)
    (hsorted : List.Chain' (fun a c => options.Compare c.1 a.1 > 0) kvs)
    (hlen : ∀ kv ∈ kvs, kv.1.length < 2 ^ 32 ∧ kv.2.length < 2 ^ 32)
    (hsize : (Finish (AddAll (BlockBuilder.create options) kvs)).2.length < 2 ^ 32) :
    AddAllAsserts (BlockBuilder.create options) kvs = true ∧
      decodeBlock (Finish (AddAll (BlockBuilder.create options) kvs)).2 = some kvs := by
  refine ⟨?_, ?_⟩
  · apply AddAllAsserts_sorted kvs (BlockBuilder.create options) rfl
    · show (0 : Int) ≤ options.block_restart_interval
      omega
    · exact hK
    · intro kv _; left; rfl
    · exact hsorted
  · rw [decodeBlock_Finish _ hsize]
    obtain ⟨data, h1, h2, h3⟩ := AddAll_decode kvs (BlockBuilder.create options) hlen
    have hb : (AddAll (BlockBuilder.create options) kvs).buffer_ = data := by
      rw [h1]; rfl
    rw [hb]
    exact h3 data.length h2

theorem block_round_trip_witness :
    (1 ≤ sampleOptions.block_restart_interval ∧
      List.Chain' (fun a c => sampleOptions.Compare c.1 a.1 > 0) sampleEntries ∧
      (∀ kv ∈ sampleEntries, kv.1.length < 2 ^ 32 ∧ kv.2.length < 2 ^ 32) ∧
      (Finish (AddAll (BlockBuilder.create sampleOptions) sampleEntries)).2.length < 2 ^ 32) ∧
    (AddAllAsserts (BlockBuilder.create sampleOptions) sampleEntries = true ∧
      decodeBlock (Finish (AddAll (BlockBuilder.create sampleOptions) sampleEntries)).2
        = some sampleEntries) :=
  have h1 : 1 ≤ sampleOptions.block_restart_interval := by decide
  have h2 : List.Chain' (fun a c => sampleOptions.Compare c.1 a.1 > 0) sampleEntries := by
    unfold sampleEntries
    refine List.chain'_cons.mpr ⟨by decide, List.chain'_cons.mpr ⟨by decide, ?_⟩⟩
    exact List.chain'_singleton _
  have h3 : ∀ kv ∈ sampleEntries, kv.1.length < 2 ^ 32 ∧ kv.2.length < 2 ^ 32 := by
    decide
  have h4 : (Finish (AddAll (BlockBuilder.create sampleOptions) sampleEntries)).2.length
      < 2 ^ 32 := by
    decide
  ⟨⟨h1, h2, h3, h4⟩, block_round_trip sampleOptions sampleEntries h1 h2 h3 h4⟩

/-! ### Failure of the varint decoders -/

theorem GetVarint32PtrLoop_none : ∀ (p : List Nat) (shift result : Nat),
    GetVarint32PtrLoop p shift result = none ↔
      ∀ c ∈ p.take (itersLeft32 shift), highBitSet c = true := by
  intro p
  induction p with
  | nil => intro shift result; simp [GetVarint32PtrLoop]
  | cons c p ih =>
    intro shift result
    by_cases hs : shift ≤ 28
    · have hit : itersLeft32 shift = itersLeft32 (shift + 7) + 1 := by
        unfold itersLeft32; split_ifs <;> omega
      rw [hit, List.take_succ_cons]
      simp only [GetVarint32PtrLoop, hs, if_true, List.mem_cons, forall_eq_or_imp]
      by_cases hb : c % 256 &&& 128 ≠ 0
      · rw [if_pos hb, ih]
        simp [highBitSet, hb]
      · rw [if_neg hb]
        simp [highBitSet, hb]
    · have hit : itersLeft32 shift = 0 := by unfold itersLeft32; rw [if_neg hs]
      simp [GetVarint32PtrLoop, hs, hit]

theorem GetVarint64PtrLoop_none : ∀ (p : List Nat) (shift result : Nat),
    GetVarint64PtrLoop p shift result = none ↔
      ∀ c ∈ p.take (itersLeft64 shift), highBitSet c = true := by
  intro p
  induction p with
  | nil => intro shift result; simp [GetVarint64PtrLoop]
  | cons c p ih =>
    intro shift result
    by_cases hs : shift ≤ 63
    · have hit : itersLeft64 shift = itersLeft64 (shift + 7) + 1 := by
        unfold itersLeft64; split_ifs <;> omega
      rw [hit, List.take_succ_cons]
      simp only [GetVarint64PtrLoop, hs, if_true, List.mem_cons, forall_eq_or_imp]
      by_cases hb : c % 256 &&& 128 ≠ 0
      · rw [if_pos hb, ih]
        simp [highBitSet, hb]
      · rw [if_neg hb]
        simp [highBitSet, hb]
    · have hit : itersLeft64 shift = 0 := by unfold itersLeft64; rw [if_neg hs]
      simp [GetVarint64PtrLoop, hs, hit]

theorem GetVarint32PtrLoop_some : ∀ (p : List Nat) (shift result v : Nat) (q : List Nat),
    GetVarint32PtrLoop p shift result = some (v, q) →
      ∃ i, i < p.length ∧ highBitSet (p.getD i 0) = false ∧
        (∀ j, j < i → highBitSet (p.getD j 0) = true) ∧ q = p.drop (i + 1) := by
  intro p
  induction p with
  | nil => intro shift result v q h; simp [GetVarint32PtrLoop] at h
  | cons c p ih =>
    intro shift result v q h
    by_cases hs : shift ≤ 28
    · simp only [GetVarint32PtrLoop, hs, if_true] at h
      by_cases hb : c % 256 &&& 128 ≠ 0
      · rw [if_pos hb] at h
        obtain ⟨i, h1, h2, h3, h4⟩ := ih _ _ v q h
        refine ⟨i + 1, by simpa using h1, by simpa using h2, ?_, by simpa using h4⟩
        intro j hj
        cases j with
        | zero => simp [highBitSet, hb]
        | succ j => simpa using h3 j (by omega)
      · rw [if_neg hb] at h
        simp only [Option.some.injEq, Prod.mk.injEq] at h
        refine ⟨0, by simp, ?_, fun j hj => by omega, by simp [h.2]⟩
        simpa [highBitSet] using hb
    · simp [GetVarint32PtrLoop, hs] at h

theorem GetVarint64PtrLoop_some : ∀ (p : List Nat) (shift result v : Nat) (q : List Nat),
    GetVarint64PtrLoop p shift result = some (v, q) →
      ∃ i, i < p.length ∧ highBitSet (p.getD i 0) = false ∧
        (∀ j, j < i → highBitSet (p.getD j 0) = true) ∧ q = p.drop (i + 1) := by
  intro p
  induction p with
  | nil => intro shift result v q h; simp [GetVarint64PtrLoop] at h
  | cons c p ih =>
    intro shift result v q h
    by_cases hs : shift ≤ 63
    · simp only [GetVarint64PtrLoop, hs, if_true] at h
      by_cases hb : c % 256 &&& 128 ≠ 0
      · rw [if_pos hb] at h
        obtain ⟨i, h1, h2, h3, h4⟩ := ih _ _ v q h
        refine ⟨i + 1, by simpa using h1, by simpa using h2, ?_, by simpa using h4⟩
        intro j hj
        cases j with
        | zero => simp [highBitSet, hb]
        | succ j => simpa using h3 j (by omega)
      · rw [if_neg hb] at h
        simp only [Option.some.injEq, Prod.mk.injEq] at h
        refine ⟨0, by simp, ?_, fun j hj => by omega, by simp [h.2]⟩
        simpa [highBitSet] using hb
    · simp [GetVarint64PtrLoop, hs] at h

/-- C16: for every byte sequence `b`, `GetVarint32PtrFallback` returns the
null sentinel exactly when every one of the first `min(5, len b)` bytes has
its high bit set, and `GetVarint64Ptr` exactly when every one of the first
`min(10, len b)` bytes has; both fail on the empty input; and when they
succeed, the returned pointer is just past the first byte with the high bit
clear. -/
theorem varint_decode_failure (b : List Nat) :
    (GetVarint32PtrFallback b = none ↔ ∀ c ∈ b.take (min 5 b.length), highBitSet c = true) ∧
    (GetVarint64Ptr b = none ↔ ∀ c ∈ b.take (min 10 b.length), highBitSet c = true) ∧
    GetVarint32PtrFallback [] = none ∧ GetVarint64Ptr [] = none ∧
    (∀ v q, GetVarint32PtrFallback b = some (v, q) →
      ∃ i, i < b.length ∧ highBitSet (b.getD i 0) = false ∧
        (∀ j, j < i → highBitSet (b.getD j 0) = true) ∧ q = b.drop (i + 1)) ∧
    (∀ v q, GetVarint64Ptr b = some (v, q) →
      ∃ i, i < b.length ∧ highBitSet (b.getD i 0) = false ∧
        (∀ j, j < i → highBitSet (b.getD j 0) = true) ∧ q = b.drop (i + 1)) := by
  have t5 : b.take (min 5 b.length) = b.take 5 := by
    rw [← List.take_take]; simp
  have t10 : b.take (min 10 b.length) = b.take 10 := by
    rw [← List.take_take]; simp
  rw [t5, t10]
  refine ⟨?_, ?_, rfl, rfl, ?_, ?_⟩
  · exact GetVarint32PtrLoop_none b 0 0
  · exact GetVarint64PtrLoop_none b 0 0
  · exact fun v q h => GetVarint32PtrLoop_some b 0 0 v q h
  · exact fun v q h => GetVarint64PtrLoop_some b 0 0 v q h

/-! ### Varint length and length-prefixed slices -/

theorem VarintLength_lt (v : Nat) (h : v < 128) : VarintLength v = 1 := by
  rw [VarintLength, dif_neg (by omega)]

theorem VarintLength_ge (v : Nat) (h : 128 ≤ v) : VarintLength v = VarintLength (v / 128) + 1 := by
  rw [VarintLength, dif_pos h]
  simp [Nat.shiftRight_eq_div_pow]

theorem VarintLength_eq_EncodeVarint64 (v : Nat) : VarintLength v = (EncodeVarint64 v).length := by
  induction v using Nat.strong_induction_on with
  | _ v ih =>
    by_cases h : v < 128
    · rw [VarintLength_lt v h, EncodeVarint64_lt v h]; rfl
    · rw [VarintLength_ge v (by omega), EncodeVarint64_ge v (by omega),
        ih (v / 128) (by omega)]
      rfl

theorem VarintLength_le : ∀ (k v : Nat), v < 2 ^ (7 * (k + 1)) → VarintLength v ≤ k + 1 := by
  intro k
  induction k with
  | zero =>
    intro v h
    rw [VarintLength_lt v (by simpa using h)]
  | succ k ih =>
    intro v h
    by_cases h1 : v < 128
    · rw [VarintLength_lt v h1]; omega
    · rw [VarintLength_ge v (by omega)]
      have hp : 2 ^ (7 * (k + 1 + 1)) = 2 ^ (7 * (k + 1)) * 128 := by
        rw [show 7 * (k + 1 + 1) = 7 * (k + 1) + 7 by ring, Nat.pow_add]
      have : v / 128 < 2 ^ (7 * (k + 1)) := by
        rw [Nat.div_lt_iff_lt_mul (by norm_num)]
        omega
      have := ih (v / 128) this
      omega

theorem VarintLength_pos (v : Nat) : 1 ≤ VarintLength v := by
  by_cases h : v < 128
  · rw [VarintLength_lt v h]
  · rw [VarintLength_ge v (by omega)]; omega

/-- C18: for every 64-bit `v`, `VarintLength(v)` is the number of bytes
`EncodeVarint64` writes for `v` and lies between 1 and 10; for every 32-bit
`v`, it is the number of bytes `EncodeVarint32` writes and lies between 1 and
5. -/
theorem varint_length (v : Nat) :
    (v < 2 ^ 64 → VarintLength v = (EncodeVarint64 v).length ∧
      1 ≤ VarintLength v ∧ VarintLength v ≤ 10) ∧
    (v < 2 ^ 32 → VarintLength v = (EncodeVarint32 v).length ∧
      1 ≤ VarintLength v ∧ VarintLength v ≤ 5) := by
  refine ⟨fun h => ⟨VarintLength_eq_EncodeVarint64 v, VarintLength_pos v, ?_⟩,
    fun h => ⟨?_, VarintLength_pos v, ?_⟩⟩
  · exact VarintLength_le 9 v (lt_of_lt_of_le h (by norm_num))
  · rw [EncodeVarint32_eq_EncodeVarint64 v h]
    exact VarintLength_eq_EncodeVarint64 v
  · exact VarintLength_le 4 v (lt_of_lt_of_le h (by norm_num))

theorem GetVarint32_encode (v : Nat) (hv : v < 2 ^ 32) (rest : List Nat) :
    GetVarint32 (EncodeVarint32 v ++ rest) = some (v, rest) := by
  unfold GetVarint32 GetVarint32Ptr
  rw [GetVarint32PtrFallback_encode v hv rest]

/-- C17: for every byte string `s` shorter than 2^32, every destination and
every `rest`: `PutLengthPrefixedSlice` appends the varint32 of `len(s)`
followed by `s`; both forms of `GetLengthPrefixedSlice`, applied to those
bytes followed by `rest`, succeed with exactly `s` and leave `rest`; and both
fail whenever the declared length exceeds the bytes that remain after the
length prefix. -/
theorem length_prefixed_round_trip (s dst rest : List Nat) (hs : s.length < 2 ^ 32) :
    PutLengthPrefixedSlice dst s = dst ++ (EncodeVarint32 s.length ++ s) ∧
    GetLengthPrefixedSlice ((PutLengthPrefixedSlice dst s).drop dst.length ++ rest)
      = some (s, rest) ∧
    GetLengthPrefixedSlicePtr ((PutLengthPrefixedSlice dst s).drop dst.length ++ rest)
      = some (s, rest) ∧
    (∀ (input : List Nat) (len : Nat) (q : List Nat),
      GetVarint32 input = some (len, q) → q.length < len →
        GetLengthPrefixedSlice input = none ∧ GetLengthPrefixedSlicePtr input = none) := by
  have hput : PutLengthPrefixedSlice dst s = dst ++ (EncodeVarint32 s.length ++ s) := by
    unfold PutLengthPrefixedSlice PutVarint32
    rw [Nat.mod_eq_of_lt hs, List.append_assoc]
  have hdrop : (PutLengthPrefixedSlice dst s).drop dst.length ++ rest
      = EncodeVarint32 s.length ++ (s ++ rest) := by
    rw [hput, List.drop_left, List.append_assoc]
  refine ⟨hput, ?_, ?_, ?_⟩
  · rw [hdrop]
    unfold GetLengthPrefixedSlice
    rw [GetVarint32_encode _ hs]
    simp
  · rw [hdrop]
    unfold GetLengthPrefixedSlicePtr GetVarint32Ptr
    rw [GetVarint32PtrFallback_encode _ hs]
    simp
  · intro input len q h hlt
    constructor
    · unfold GetLengthPrefixedSlice
      rw [h]
      simp only
      rw [if_neg (by omega)]
    · unfold GetLengthPrefixedSlicePtr
      unfold GetVarint32 at h
      cases hp : GetVarint32Ptr input with
      | none => rfl
      | some r =>
        obtain ⟨a, c⟩ := r
        rw [hp] at h
        simp only [Option.some.injEq, Prod.mk.injEq] at h
        obtain ⟨ha, hc⟩ := h
        subst ha hc
        simp only
        rw [if_pos hlt]

theorem length_prefixed_round_trip_witness :
    ([104, 105] : List Nat).length < 2 ^ 32 ∧
    (PutLengthPrefixedSlice [9] [104, 105] = [9] ++ (EncodeVarint32 [104, 105].length ++ [104, 105]) ∧
    GetLengthPrefixedSlice ((PutLengthPrefixedSlice [9] [104, 105]).drop [9].length ++ [7])
      = some ([104, 105], [7]) ∧
    GetLengthPrefixedSlicePtr ((PutLengthPrefixedSlice [9] [104, 105]).drop [9].length ++ [7])
      = some ([104, 105], [7]) ∧
    (∀ (input : List Nat) (len : Nat) (q : List Nat),
      GetVarint32 input = some (len, q) → q.length < len →
        GetLengthPrefixedSlice input = none ∧ GetLengthPrefixedSlicePtr input = none)) :=
  ⟨by norm_num, length_prefixed_round_trip [104, 105] [9] [7] (by norm_num)⟩

theorem varint_length_witness :
    ((300 : Nat) < 2 ^ 64 ∧ (300 : Nat) < 2 ^ 32) ∧
    (VarintLength 300 = (EncodeVarint64 300).length ∧
      1 ≤ VarintLength 300 ∧ VarintLength 300 ≤ 10) ∧
    (VarintLength 300 = (EncodeVarint32 300).length ∧
      1 ≤ VarintLength 300 ∧ VarintLength 300 ≤ 5) :=
  ⟨⟨by norm_num, by norm_num⟩, (varint_length 300).1 (by norm_num),
    (varint_length 300).2 (by norm_num)⟩

theorem varint_decode_failure_witness :
    GetVarint32PtrFallback [172, 2, 7] = some (300, [7]) ∧
    ∃ i, i < [172, 2, 7].length ∧ highBitSet (([172, 2, 7] : List Nat).getD i 0) = false ∧
      (∀ j, j < i → highBitSet (([172, 2, 7] : List Nat).getD j 0) = true) ∧
      [7] = ([172, 2, 7] : List Nat).drop (i + 1) :=
  have h : GetVarint32PtrFallback [172, 2, 7] = some (300, [7]) := by decide
  ⟨h, (varint_decode_failure [172, 2, 7]).2.2.2.2.1 300 [7] h⟩

/-! ### The block offset of the writer -/

theorem AddRecordLoop_block_offset {σ : Type} (F : WritableFile σ) (C : Crc32c)
    (mem : Nat → Nat) :
    ∀ (fuel : Nat) (w : Writer σ) (ptr left : Nat) (begin_ : Bool)
      (r : Writer σ × Status × List Event),
      AddRecordLoop F C mem fuel w ptr left begin_ = some r →
      0 ≤ w.block_offset_ → w.block_offset_ ≤ 32768 →
      0 ≤ r.1.block_offset_ ∧ r.1.block_offset_ ≤ 32768 := by
  intro fuel
  induction fuel with
  | zero =>
    intro w ptr left begin_ r h
    simp [AddRecordLoop] at h
  | succ fuel ih =>
    intro w ptr left begin_ r h h0 h1
    simp only [AddRecordLoop] at h
    have hsw := switchBlock_block_offset F w
    generalize hfl : (if left < ((kBlockSize - (switchBlock F w).1.block_offset_ - kHeaderSize)
      % 2 ^ 64).toNat then left
      else ((kBlockSize - (switchBlock F w).1.block_offset_ - kHeaderSize) % 2 ^ 64).toNat) = fl
      at h
    have hbo := EmitPhysicalRecord_block_offset F C mem (switchBlock F w).1
      (chooseType begin_ (decide (left = fl))) (ptr + fl) fl
    have hE : 0 ≤ (EmitPhysicalRecord F C mem (switchBlock F w).1
        (chooseType begin_ (decide (left = fl))) (ptr + fl) fl).1.block_offset_ ∧
        (EmitPhysicalRecord F C mem (switchBlock F w).1
        (chooseType begin_ (decide (left = fl))) (ptr + fl) fl).1.block_offset_ ≤ 32768 := by
      rw [hbo, hsw, ← hfl, hsw]
      unfold kBlockSize kHeaderSize
      split_ifs <;> omega
    generalize EmitPhysicalRecord F C mem (switchBlock F w).1
      (chooseType begin_ (decide (left = fl))) (ptr + fl) fl = E at h hE
    by_cases hc : (E.2.1.ok && decide (left - fl > 0)) = true
    · rw [if_pos hc] at h
      cases hr2 : AddRecordLoop F C mem fuel E.1 (ptr + fl) (left - fl) false with
      | none => rw [hr2] at h; simp at h
      | some r2 =>
        rw [hr2] at h
        simp only [Option.some.injEq] at h
        subst h
        exact ih _ _ _ _ r2 hr2 hE.1 hE.2
    · rw [if_neg hc] at h
      simp only [Option.some.injEq] at h
      subst h
      exact hE

theorem AddRecords_block_offset {σ : Type} (F : WritableFile σ) (C : Crc32c)
    (mem : Nat → Nat) :
    ∀ (slices : List Slice) (w : Writer σ),
      0 ≤ w.block_offset_ → w.block_offset_ ≤ 32768 →
      ∃ r, AddRecords F C mem w slices = some r ∧
        0 ≤ r.1.block_offset_ ∧ r.1.block_offset_ ≤ 32768 := by
  intro slices
  induction slices with
  | nil => intro w h0 h1; exact ⟨_, rfl, h0, h1⟩
  | cons slice slices ih =>
    intro w h0 h1
    obtain ⟨r, hr⟩ := AddRecord_returns F C mem w slice
    obtain ⟨g0, g1⟩ := AddRecordLoop_block_offset F C mem _ w _ _ _ r hr h0 h1
    obtain ⟨r2, hr2, k0, k1⟩ := ih r.1 g0 g1
    exact ⟨(r2.1, r.2.2 ++ r2.2), by simp only [AddRecords, hr, hr2], k0, k1⟩

/-- C19 as stated fails: a writer constructed at file length 32761 (seven
bytes left in the block) that adds the empty record writes a header that
fills the block, and is left with `block_offset_ = 32768`, the block size. -/
theorem block_offset_reaches_block_size :
    (AddRecord memFile zeroCrc (memOf []) (Writer.createAt [] 32761) ⟨0, 0⟩).map
        (fun r => (r.2.1, r.1.block_offset_)) = some (Status.OK, 32768) ∧
      ¬ ((32768 : Int) < 32768) := by
  decide

/-- C19 as amended: for every starting file length, `block_offset_` is in
`[0, 32768)` after construction, and for every destination and every
sequence of `AddRecord` calls the calls return and `block_offset_` is in
`[0, 32768]` after them (the bound 32768 included). -/
theorem block_offset_bounds {σ : Type} (F : WritableFile σ) (C : Crc32c) (mem : Nat → Nat)
    (dest : σ) (L : Nat) (slices : List Slice) :
    (0 ≤ (Writer.createAt dest L).block_offset_ ∧
      (Writer.createAt dest L).block_offset_ < 32768) ∧
    ∃ r, AddRecords F C mem (Writer.createAt dest L) slices = some r ∧
      0 ≤ r.1.block_offset_ ∧ r.1.block_offset_ ≤ 32768 := by
  have h0 : 0 ≤ (Writer.createAt dest L).block_offset_ ∧
      (Writer.createAt dest L).block_offset_ < 32768 := by
    unfold Writer.createAt kBlockSize; simp only; omega
  exact ⟨h0, AddRecords_block_offset F C mem slices _ h0.1 (by omega)⟩

/-! ### The filter block reader -/

theorem FilterBlockReader.create_accepted (P : FilterPolicy) (contents : List Nat)
    (h : 0 < (FilterBlockReader.create P contents).num_) :
    5 ≤ contents.length ∧ DecodeFixed32 contents (contents.length - 5) ≤ contents.length - 5 ∧
      FilterBlockReader.create P contents
        = ⟨P, some contents, DecodeFixed32 contents (contents.length - 5),
            (contents.length - 5 - DecodeFixed32 contents (contents.length - 5)) / 4,
            (contents.getD (contents.length - 1) 0) % 256⟩ := by
  unfold FilterBlockReader.create at h ⊢
  by_cases h5 : contents.length < 5
  · simp [h5] at h
  · by_cases hw : DecodeFixed32 contents (contents.length - 5) > contents.length - 5
    · simp [h5, hw] at h
    · simp only [h5, hw, if_false]
      exact ⟨by omega, by omega, trivial⟩

/-- C11 as stated fails: in the accepted 13-byte block with offset array
`[5, 5]` and array offset 0, segment 0 has `start = limit = 5`, beyond the
(empty) data region, and `KeyMayMatch(0, key)` returns false. -/
theorem corrupt_empty_segment_no_match :
    (FilterBlockReader.create alwaysMatch [5, 0, 0, 0, 5, 0, 0, 0, 0, 0, 0, 0, 11]).num_ = 2 ∧
    (FilterBlockReader.create alwaysMatch [5, 0, 0, 0, 5, 0, 0, 0, 0, 0, 0, 0, 11]).offset_ = 0 ∧
    (FilterBlockReader.create alwaysMatch [5, 0, 0, 0, 5, 0, 0, 0, 0, 0, 0, 0, 11]).base_lg_ = 11 ∧
    DecodeFixed32 [5, 0, 0, 0, 5, 0, 0, 0, 0, 0, 0, 0, 11] 0 = 5 ∧
    DecodeFixed32 [5, 0, 0, 0, 5, 0, 0, 0, 0, 0, 0, 0, 11] 4 = 5 ∧
    (FilterBlockReader.create alwaysMatch
      [5, 0, 0, 0, 5, 0, 0, 0, 0, 0, 0, 0, 11]).KeyMayMatch 0 [120] = false := by
  simp [FilterBlockReader.create, FilterBlockReader.KeyMayMatch, DecodeFixed32]

/-- C11 as amended: for every policy, every buffer accepted by the reader and
every `block_offset` whose index is in range, if the offsets of the segment
satisfy `start > limit`, or `limit` is greater than the array offset and
`start` differs from `limit`, then `KeyMayMatch` returns true for every key. -/
theorem fail_open_on_corrupt_offsets (P : FilterPolicy) (contents : List Nat)
    (block_offset : Nat) (key : List Nat)
    (h : block_offset >>> (FilterBlockReader.create P contents).base_lg_
      < (FilterBlockReader.create P contents).num_)
    (hc : DecodeFixed32 contents ((FilterBlockReader.create P contents).offset_
          + (block_offset >>> (FilterBlockReader.create P contents).base_lg_) * 4)
        > DecodeFixed32 contents ((FilterBlockReader.create P contents).offset_
          + (block_offset >>> (FilterBlockReader.create P contents).base_lg_) * 4 + 4) ∨
      (DecodeFixed32 contents ((FilterBlockReader.create P contents).offset_
          + (block_offset >>> (FilterBlockReader.create P contents).base_lg_) * 4 + 4)
        > (FilterBlockReader.create P contents).offset_ ∧
       DecodeFixed32 contents ((FilterBlockReader.create P contents).offset_
          + (block_offset >>> (FilterBlockReader.create P contents).base_lg_) * 4)
        ≠ DecodeFixed32 contents ((FilterBlockReader.create P contents).offset_
          + (block_offset >>> (FilterBlockReader.create P contents).base_lg_) * 4 + 4))) :
    (FilterBlockReader.create P contents).KeyMayMatch block_offset key = true := by
  obtain ⟨h5, hw, hr⟩ := FilterBlockReader.create_accepted P contents
    (Nat.lt_of_le_of_lt (Nat.zero_le _) h)
  rw [hr] at h hc ⊢
  simp only at h hc
  simp only [FilterBlockReader.KeyMayMatch, h, if_true, Option.getD_some]
  rcases hc with hc | ⟨hc1, hc2⟩
  · rw [if_neg (by omega), if_neg (by omega)]
  · rw [if_neg (by omega), if_neg hc2]

theorem fail_open_on_corrupt_offsets_witness :
    (FilterBlockReader.create alwaysMatch [5, 0, 0, 0, 0, 0, 0, 0, 11]).KeyMayMatch 0 [120]
      = true :=
  fail_open_on_corrupt_offsets alwaysMatch [5, 0, 0, 0, 0, 0, 0, 0, 11] 0 [120]
    (by simp [FilterBlockReader.create, DecodeFixed32])
    (Or.inl (by simp [FilterBlockReader.create, DecodeFixed32]))

/-- C12: for every policy, if the buffer is shorter than 5 bytes or its
declared array offset (the fixed32 in bytes `n-5 .. n-2`) is greater than
`n - 5`, `KeyMayMatch` returns true for every `block_offset` and key; and for
every accepted buffer, `KeyMayMatch` returns true for every `block_offset`
whose index `block_offset >> base_lg` is at least the parsed segment count
`(n - 5 - array_offset) / 4`. -/
theorem absent_filter_matches (P : FilterPolicy) (contents : List Nat) (block_offset : Nat)
    (key : List Nat) :
    (contents.length < 5 ∨
        DecodeFixed32 contents (contents.length - 5) > contents.length - 5 →
      (FilterBlockReader.create P contents).KeyMayMatch block_offset key = true) ∧
    (¬ (contents.length < 5 ∨
        DecodeFixed32 contents (contents.length - 5) > contents.length - 5) →
      (FilterBlockReader.create P contents).num_
        = (contents.length - 5 - DecodeFixed32 contents (contents.length - 5)) / 4 ∧
      (block_offset >>> (FilterBlockReader.create P contents).base_lg_
          ≥ (contents.length - 5 - DecodeFixed32 contents (contents.length - 5)) / 4 →
        (FilterBlockReader.create P contents).KeyMayMatch block_offset key = true)) := by
  constructor
  · intro h
    have hn : (FilterBlockReader.create P contents).num_ = 0 := by
      unfold FilterBlockReader.create
      by_cases h5 : contents.length < 5
      · simp [h5]
      · have hw : DecodeFixed32 contents (contents.length - 5) > contents.length - 5 := by
          rcases h with h | h
          · exact absurd h h5
          · exact h
        simp [h5, hw]
    simp [FilterBlockReader.KeyMayMatch, hn]
  · intro h
    have h5 : ¬ contents.length < 5 := fun x => h (Or.inl x)
    have hw : ¬ DecodeFixed32 contents (contents.length - 5) > contents.length - 5 :=
      fun x => h (Or.inr x)
    have hn : (FilterBlockReader.create P contents).num_
        = (contents.length - 5 - DecodeFixed32 contents (contents.length - 5)) / 4 := by
      unfold FilterBlockReader.create
      simp only [h5, hw, if_false]
    refine ⟨hn, fun hge => ?_⟩
    unfold FilterBlockReader.KeyMayMatch
    simp only
    rw [hn, if_neg (by omega)]

theorem absent_filter_matches_witness :
    (([1, 2, 3] : List Nat).length < 5 ∨
      DecodeFixed32 [1, 2, 3] (([1, 2, 3] : List Nat).length - 5)
        > ([1, 2, 3] : List Nat).length - 5) ∧
    (FilterBlockReader.create alwaysMatch [1, 2, 3]).KeyMayMatch 7 [120] = true :=
  have h : ([1, 2, 3] : List Nat).length < 5 ∨
      DecodeFixed32 [1, 2, 3] (([1, 2, 3] : List Nat).length - 5)
        > ([1, 2, 3] : List Nat).length - 5 := Or.inl (by decide)
  ⟨h, (absent_filter_matches alwaysMatch [1, 2, 3] 7 [120]).1 h⟩

/-! ### Shared prefixes and restart points -/

theorem sharedLoop_eq_lcpLength : ∀ (last key : List Nat) (s : Nat),
    sharedLoop last key s = s + lcpLength last key := by
  intro last
  induction last with
  | nil => intro key s; simp [sharedLoop, lcpLength]
  | cons a last ih =>
    intro key s
    cases key with
    | nil => simp [sharedLoop, lcpLength]
    | cons c key =>
      simp only [sharedLoop, lcpLength]
      by_cases h : a = c
      · simp only [h, if_true, ih]; omega
      · simp [h]

theorem lcpLength_le : ∀ (a c : List Nat), lcpLength a c ≤ a.length ∧ lcpLength a c ≤ c.length := by
  intro a
  induction a with
  | nil => intro c; simp [lcpLength]
  | cons x a ih =>
    intro c
    cases c with
    | nil => simp [lcpLength]
    | cons y c =>
      simp only [lcpLength, List.length_cons]
      have := ih c
      split_ifs <;> omega

theorem lcpLength_comm : ∀ (a c : List Nat), lcpLength a c = lcpLength c a := by
  intro a
  induction a with
  | nil => intro c; cases c <;> simp [lcpLength]
  | cons x a ih =>
    intro c
    cases c with
    | nil => simp [lcpLength]
    | cons y c =>
      simp only [lcpLength, ih c]
      by_cases h : x = y
      · simp [h]
      · simp [h, Ne.symm h]

theorem AddAll_append : ∀ (l1 l2 : List (List Nat × List Nat)) (b : BlockBuilder),
    AddAll b (l1 ++ l2) = AddAll (AddAll b l1) l2 := by
  intro l1
  induction l1 with
  | nil => intro l2 b; rfl
  | cons kv l1 ih =>
    intro l2 b
    show AddAll (Add b kv.1 kv.2) (l1 ++ l2) = AddAll (AddAll (Add b kv.1 kv.2) l1) l2
    exact ih l2 _

theorem AddAll_take_succ (b : BlockBuilder) (kvs : List (List Nat × List Nat)) (i : Nat)
    (hi : i < kvs.length) :
    AddAll b (kvs.take (i + 1))
      = Add (AddAll b (kvs.take i)) (kvs.getD i ([], [])).1 (kvs.getD i ([], [])).2 := by
  have h : kvs.take (i + 1) = kvs.take i ++ [kvs.getD i ([], [])] := by
    rw [List.take_succ, List.getD_eq_getElem?_getD, List.getElem?_eq_getElem hi]
    rfl
  rw [h, AddAll_append]
  rfl

theorem AddAll_last_key (b : BlockBuilder) (kvs : List (List Nat × List Nat)) (i : Nat)
    (hi : i < kvs.length) :
    (AddAll b (kvs.take (i + 1))).last_key_ = (kvs.getD i ([], [])).1 := by
  rw [AddAll_take_succ b kvs i hi, Add_last_key]

theorem Add_restarts (b : BlockBuilder) (key value : List Nat) :
    (Add b key value).restarts_
      = if ¬ (b.counter_ < b.options_.block_restart_interval)
        then b.restarts_ ++ [b.buffer_.length % 2 ^ 32] else b.restarts_ := rfl

/-- The value of `shared` in the `i`-th `Add` of a sequence on a fresh or
reset builder. -/
theorem sharedOf_entry (b0 : BlockBuilder) (hb0 : b0.last_key_ = [])
    (kvs : List (List Nat × List Nat)) (i : Nat) (hi : i < kvs.length) :
    sharedOf (AddAll b0 (kvs.take i)) (kvs.getD i ([], [])).1
      = if i = 0 ∨ (Add (AddAll b0 (kvs.take i)) (kvs.getD i ([], [])).1
            (kvs.getD i ([], [])).2).restarts_ ≠ (AddAll b0 (kvs.take i)).restarts_
        then 0
        else lcpLength (kvs.getD i ([], [])).1 (kvs.getD (i - 1) ([], [])).1 := by
  rw [Add_restarts]
  unfold sharedOf
  by_cases hc : (AddAll b0 (kvs.take i)).counter_
      < (AddAll b0 (kvs.take i)).options_.block_restart_interval
  · simp only [hc, not_true_eq_false, if_false, ne_eq, not_true_eq_false, or_false]
    rw [sharedLoop_eq_lcpLength, Nat.zero_add]
    cases i with
    | zero =>
      simp only [List.take_zero, AddAll, hb0, if_true]
      simp [lcpLength]
    | succ i =>
      rw [AddAll_last_key b0 kvs i (by omega)]
      simp only [Nat.add_one_ne_zero, if_false, Nat.add_sub_cancel]
      exact lcpLength_comm _ _
  · simp only [hc, not_false_eq_true, if_true]
    rw [if_pos]
    right
    intro h
    have := congrArg List.length h
    simp at this

/-- C14 as stated fails for keys of 2^32 bytes: with restart interval 2, after
the key of 2^32 bytes `a`, the key of 2^32 bytes `a` followed by `b` is not a
restart point and shares 2^32 bytes with its predecessor, but the `shared`
varint written for it is that of 0 (`shared` is converted to `uint32_t`).
Stated for any length `N` that is a multiple of 2^32. -/
theorem shared_varint_wraps_general (N : Nat) (hN : N % 2 ^ 32 = 0) :
    (Add (Add (BlockBuilder.create sampleOptions) (List.replicate N 97) [])
        (List.replicate N 97 ++ [98]) []).restarts_
      = (Add (BlockBuilder.create sampleOptions) (List.replicate N 97) []).restarts_ ∧
    lcpLength (List.replicate N 97 ++ [98]) (List.replicate N 97) = N ∧
    (Add (Add (BlockBuilder.create sampleOptions) (List.replicate N 97) [])
        (List.replicate N 97 ++ [98]) []).buffer_
      = (Add (BlockBuilder.create sampleOptions) (List.replicate N 97) []).buffer_
        ++ (EncodeVarint32 0 ++ [1, 0, 98]) := by
  have hl : ∀ n : Nat, lcpLength (List.replicate n 97 ++ [98]) (List.replicate n 97) = n := by
    intro n
    induction n with
    | zero => simp [lcpLength]
    | succ n ih => simp [List.replicate_succ, lcpLength, ih]
  have hcounter : (Add (BlockBuilder.create sampleOptions) (List.replicate N 97) []).counter_
      = 1 := by
    simp [Add, BlockBuilder.create, sampleOptions]
  have hopt : (Add (BlockBuilder.create sampleOptions) (List.replicate N 97) []).options_
      = sampleOptions := rfl
  have hshared : sharedOf (Add (BlockBuilder.create sampleOptions) (List.replicate N 97) [])
      (List.replicate N 97 ++ [98]) = N := by
    unfold sharedOf
    rw [hcounter, hopt, Add_last_key, sharedLoop_eq_lcpLength, lcpLength_comm, hl]
    simp [sampleOptions]
  refine ⟨?_, hl N, ?_⟩
  · rw [Add_restarts, hcounter, hopt]
    simp [sampleOptions]
  · rw [Add_buffer, hshared]
    congr 1
    unfold entryBytes
    have hd : (List.replicate N 97 ++ [98]).drop N = [98] :=
      List.drop_left' (by simp)
    have hlen : (List.replicate N 97 ++ [98]).length - N = 1 := by simp
    rw [hN, hlen, hd]
    simp [EncodeVarint32]

/-- C14 as stated fails: see `shared_varint_wraps_general`, at `N = 2^32`. -/
theorem shared_varint_wraps :
    (Add (Add (BlockBuilder.create sampleOptions) (List.replicate (2 ^ 32) 97) [])
        (List.replicate (2 ^ 32) 97 ++ [98]) []).restarts_
      = (Add (BlockBuilder.create sampleOptions) (List.replicate (2 ^ 32) 97) []).restarts_ ∧
    lcpLength (List.replicate (2 ^ 32) 97 ++ [98]) (List.replicate (2 ^ 32) 97) = 2 ^ 32 ∧
    (Add (Add (BlockBuilder.create sampleOptions) (List.replicate (2 ^ 32) 97) [])
        (List.replicate (2 ^ 32) 97 ++ [98]) []).buffer_
      = (Add (BlockBuilder.create sampleOptions) (List.replicate (2 ^ 32) 97) []).buffer_
        ++ (EncodeVarint32 0 ++ [1, 0, 98]) :=
  shared_varint_wraps_general (2 ^ 32) (Nat.mod_self _)

/-- C14 as amended: for every sequence of `Add` calls on a fresh or reset
builder whose keys are shorter than 2^32 bytes, the `i`-th call appends to
`buffer_` an entry that begins with the varint32 of `shared`, where `shared`
is 0 when the entry is a restart point (the first entry, or one for which
`Add` pushed a restart offset) and otherwise the length of the longest common
prefix of its key and the key of the preceding call; and after the call
`last_key_` is the key just added. -/
theorem shared_prefix_value (options : Options) (b0 : BlockBuilder)
    (hb0 : b0 = BlockBuilder.create options ∨ ∃ b, b0 = Reset b)
    (kvs : List (List Nat × List Nat)) (hlen : ∀ kv ∈ kvs, kv.1.length < 2 ^ 32)
    (i : Nat) (hi : i < kvs.length) :
    AddAll b0 (kvs.take (i + 1))
      = Add (AddAll b0 (kvs.take i)) (kvs.getD i ([], [])).1 (kvs.getD i ([], [])).2 ∧
    (∃ tail, (Add (AddAll b0 (kvs.take i)) (kvs.getD i ([], [])).1
        (kvs.getD i ([], [])).2).buffer_
      = (AddAll b0 (kvs.take i)).buffer_ ++
        (EncodeVarint32
          (if i = 0 ∨ (Add (AddAll b0 (kvs.take i)) (kvs.getD i ([], [])).1
              (kvs.getD i ([], [])).2).restarts_ ≠ (AddAll b0 (kvs.take i)).restarts_
            then 0
            else lcpLength (kvs.getD i ([], [])).1 (kvs.getD (i - 1) ([], [])).1) ++ tail)) ∧
    (Add (AddAll b0 (kvs.take i)) (kvs.getD i ([], [])).1 (kvs.getD i ([], [])).2).last_key_
      = (kvs.getD i ([], [])).1 := by
  have hlast : b0.last_key_ = [] := by
    rcases hb0 with h | ⟨b, h⟩ <;> rw [h] <;> rfl
  refine ⟨AddAll_take_succ b0 kvs i hi, ?_, Add_last_key _ _ _⟩
  rw [← sharedOf_entry b0 hlast kvs i hi, Add_buffer]
  have hk : (kvs.getD i ([], [])).1.length < 2 ^ 32 := by
    apply hlen
    rw [List.getD_eq_getElem?_getD, List.getElem?_eq_getElem hi]
    exact List.getElem_mem _
  have hs := (sharedOf_spec (AddAll b0 (kvs.take i)) (kvs.getD i ([], [])).1).2.1
  unfold entryBytes
  rw [Nat.mod_eq_of_lt (lt_of_le_of_lt hs hk)]
  simp only [List.append_assoc]
  exact ⟨_, rfl⟩

theorem shared_prefix_value_witness :
    (BlockBuilder.create sampleOptions = BlockBuilder.create sampleOptions ∨
      ∃ b, BlockBuilder.create sampleOptions = Reset b) ∧
    (∀ kv ∈ sampleEntries, kv.1.length < 2 ^ 32) ∧ 1 < sampleEntries.length ∧
    (Add (AddAll (BlockBuilder.create sampleOptions) (sampleEntries.take 1))
        (sampleEntries.getD 1 ([], [])).1 (sampleEntries.getD 1 ([], [])).2).last_key_
      = (sampleEntries.getD 1 ([], [])).1 :=
  have h1 : BlockBuilder.create sampleOptions = BlockBuilder.create sampleOptions ∨
      ∃ b, BlockBuilder.create sampleOptions = Reset b := Or.inl rfl
  have h2 : ∀ kv ∈ sampleEntries, kv.1.length < 2 ^ 32 := by decide
  have h3 : 1 < sampleEntries.length := by decide
  ⟨h1, h2, h3,
    (shared_prefix_value sampleOptions (BlockBuilder.create sampleOptions) h1 sampleEntries
      h2 1 h3).2.2⟩

theorem entryOffset_succ (b : BlockBuilder) (kvs : List (List Nat × List Nat)) (i : Nat)
    (hi : i < kvs.length) : entryOffset b kvs i < entryOffset b kvs (i + 1) := by
  unfold entryOffset
  rw [AddAll_take_succ b kvs i hi, Add_buffer, List.length_append]
  have := entryBytes_length_pos (sharedOf (AddAll b (kvs.take i)) (kvs.getD i ([], [])).1)
    (kvs.getD i ([], [])).1 (kvs.getD i ([], [])).2
  omega

theorem entryOffset_lt (b : BlockBuilder) (kvs : List (List Nat × List Nat)) :
    ∀ (i2 i1 : Nat), i1 < i2 → i2 ≤ kvs.length → entryOffset b kvs i1 < entryOffset b kvs i2 := by
  intro i2
  induction i2 with
  | zero => intro i1 h; omega
  | succ i2 ih =>
    intro i1 h hle
    have hs := entryOffset_succ b kvs i2 (by omega)
    by_cases he : i1 = i2
    · rw [he]; exact hs
    · have := ih i1 (by omega) (by omega)
      omega

theorem entryOffset_le_final (b : BlockBuilder) (kvs : List (List Nat × List Nat)) (i : Nat)
    (hi : i ≤ kvs.length) : entryOffset b kvs i ≤ (AddAll b kvs).buffer_.length := by
  have hn : entryOffset b kvs kvs.length = (AddAll b kvs).buffer_.length := by
    unfold entryOffset; rw [List.take_length]
  by_cases he : i = kvs.length
  · rw [he, hn]
  · have := entryOffset_lt b kvs kvs.length i (by omega) (le_refl _)
    omega

/-- The state of the restart bookkeeping after `i` calls of `Add` on a fresh
builder: with `i = q * K + c` and `c` the counter, the restart list holds the
offsets of the entries `0, K, ..., q * K`. -/
theorem restarts_invariant (options : Options) (K : Nat)
    (hK : options.block_restart_interval = (K : Int)) (hK1 : 1 ≤ K)
    (kvs : List (List Nat × List Nat)) :
    ∀ i, i ≤ kvs.length →
      ∃ q c : Nat, (AddAll (BlockBuilder.create options) (kvs.take i)).counter_ = (c : Int) ∧
        c ≤ K ∧ i = q * K + c ∧ (c = 0 → i = 0) ∧
        (AddAll (BlockBuilder.create options) (kvs.take i)).restarts_
          = (List.range (q + 1)).map
              (fun j => entryOffset (BlockBuilder.create options) kvs (j * K) % 2 ^ 32) ∧
        (AddAll (BlockBuilder.create options) (kvs.take i)).options_ = options := by
  intro i
  induction i with
  | zero =>
    intro _
    refine ⟨0, 0, rfl, by omega, by simp, fun _ => rfl, ?_, rfl⟩
    simp [List.range_succ, AddAll, BlockBuilder.create, entryOffset]
  | succ i ih =>
    intro hi
    obtain ⟨q, c, hc, hcK, hiq, hc0, hr, ho⟩ := ih (by omega)
    rw [AddAll_take_succ _ kvs i (by omega)]
    obtain ⟨fo, _, fc, _⟩ := Add_fields (AddAll (BlockBuilder.create options) (kvs.take i))
      (kvs.getD i ([], [])).1 (kvs.getD i ([], [])).2
    rw [Add_restarts, fc, fo, ho, hK, hc]
    by_cases hlt : c < K
    · have hlt' : (c : Int) < (K : Int) := by omega
      refine ⟨q, c + 1, ?_, by omega, by omega, by omega, ?_, rfl⟩
      · simp only [hlt', not_true_eq_false, if_false]; push_cast; rfl
      · simp only [hlt', not_true_eq_false, if_false]; exact hr
    · have hcK' : c = K := by omega
      have hlt' : ¬ (c : Int) < (K : Int) := by omega
      refine ⟨q + 1, 1, ?_, hK1, ?_, by omega, ?_, rfl⟩
      · simp only [hlt', not_false_eq_true, if_true]; rfl
      · rw [hiq, hcK']; ring
      · simp only [hlt', not_false_eq_true, if_true]
        rw [hr, List.range_succ (q + 1), List.map_append, List.map_singleton]
        have e : (q + 1) * K = i := by rw [hiq, hcK']; ring
        rw [e]
        rfl

theorem restart_count (K q c n : Nat) (hK1 : 1 ≤ K) (hcK : c ≤ K) (hn : n = q * K + c)
    (hc0 : c = 0 → n = 0) : max 1 ((n + K - 1) / K) = q + 1 := by
  by_cases h0 : c = 0
  · have hn0 := hc0 h0
    have hq : q * K = 0 := by omega
    have hq0 : q = 0 := by
      rcases Nat.mul_eq_zero.mp hq with h | h
      · exact h
      · omega
    have : (n + K - 1) / K = 0 := Nat.div_eq_of_lt (by omega)
    rw [this, hq0]; rfl
  · have : (n + K - 1) / K = q + 1 := by
      apply Nat.div_eq_of_lt_le
      · rw [hn]; have : (q + 1) * K = q * K + K := by ring
        omega
      · rw [hn]; have : (q + 1 + 1) * K = q * K + K + K := by ring
        omega
    rw [this]; omega

/-- C15: for every `block_restart_interval = K >= 1` and every sequence of
`n` calls of `Add` on a fresh or reset builder whose buffer stays below 2^32
bytes, the restart list is exactly the offsets at which the entries `0, K,
2K, ...` begin, `max(1, ceil(n / K))` of them; its first element is 0, it is
strictly increasing, and every entry lies less than `K` entries after a
restart point. -/
theorem restart_points (options : Options) (b0 : BlockBuilder)
    (hb0 : b0 = BlockBuilder.create options ∨ ∃ b, b0 = Reset b ∧ b.options_ = options)
    (hK : 1 ≤ options.block_restart_interval) (kvs : List (List Nat × List Nat))
    (hsize : (AddAll b0 kvs).buffer_.length < 2 ^ 32) :
    (AddAll b0 kvs).restarts_
      = (List.range (max 1 ((kvs.length + options.block_restart_interval.toNat - 1)
            / options.block_restart_interval.toNat))).map
          (fun j => entryOffset b0 kvs (j * options.block_restart_interval.toNat)) ∧
    (AddAll b0 kvs).restarts_.head? = some 0 ∧
    List.Pairwise (fun x y => x < y) (AddAll b0 kvs).restarts_ ∧
    (∀ i, i < kvs.length → ∃ j, j < (AddAll b0 kvs).restarts_.length ∧
      j * options.block_restart_interval.toNat ≤ i ∧
      i < j * options.block_restart_interval.toNat + options.block_restart_interval.toNat) := by
  have hb : b0 = BlockBuilder.create options := by
    rcases hb0 with h | ⟨b, h, ho⟩
    · exact h
    · rw [h, ← ho]; rfl
  subst hb
  generalize hKn : options.block_restart_interval.toNat = K
  have hKi : options.block_restart_interval = (K : Int) := by omega
  have hK1 : 1 ≤ K := by omega
  obtain ⟨q, c, _, hcK, hn, hc0, hr, _⟩ :=
    restarts_invariant options K hKi hK1 kvs kvs.length (le_refl _)
  rw [List.take_length] at hr
  have hcount := restart_count K q c kvs.length hK1 hcK hn hc0
  have hjK : ∀ j, j < q + 1 → j * K ≤ kvs.length := by
    intro j hj
    have : j * K ≤ q * K := Nat.mul_le_mul_right K (by omega)
    omega
  have hmod : ∀ j, j < q + 1 →
      entryOffset (BlockBuilder.create options) kvs (j * K) % 2 ^ 32
        = entryOffset (BlockBuilder.create options) kvs (j * K) := by
    intro j hj
    apply Nat.mod_eq_of_lt
    have := entryOffset_le_final (BlockBuilder.create options) kvs (j * K) (hjK j hj)
    omega
  have hr2 : (AddAll (BlockBuilder.create options) kvs).restarts_
      = (List.range (q + 1)).map
          (fun j => entryOffset (BlockBuilder.create options) kvs (j * K)) := by
    rw [hr]
    apply List.map_congr_left
    intro j hj
    exact hmod j (List.mem_range.mp hj)
  rw [hcount, hr2]
  refine ⟨rfl, ?_, ?_, ?_⟩
  · rw [List.range_succ_eq_map]
    simp [entryOffset, AddAll, BlockBuilder.create]
  · rw [List.pairwise_map]
    apply List.Pairwise.imp_of_mem _ (List.pairwise_lt_range (q + 1))
    intro a b _ hbm hab
    apply entryOffset_lt _ _ _ _ _ (hjK b (List.mem_range.mp hbm))
    exact Nat.mul_lt_mul_of_pos_right hab (by omega)
  · intro i hi
    refine ⟨i / K, ?_, Nat.div_mul_le_self i K, Nat.lt_div_mul_add (by omega)⟩
    rw [List.length_map, List.length_range]
    apply Nat.div_lt_of_lt_mul
    have : K * (q + 1) = q * K + K := by ring
    omega

theorem restart_points_witness :
    (BlockBuilder.create sampleOptions = BlockBuilder.create sampleOptions ∨
      ∃ b, BlockBuilder.create sampleOptions = Reset b ∧ b.options_ = sampleOptions) ∧
    1 ≤ sampleOptions.block_restart_interval ∧
    (AddAll (BlockBuilder.create sampleOptions) sampleEntries).buffer_.length < 2 ^ 32 ∧
    (AddAll (BlockBuilder.create sampleOptions) sampleEntries).restarts_ = [0, 15] ∧
    entryOffset (BlockBuilder.create sampleOptions) sampleEntries 2 = 15 ∧
    (AddAll (BlockBuilder.create sampleOptions) sampleEntries).restarts_
      = (List.range (max 1 ((sampleEntries.length + sampleOptions.block_restart_interval.toNat - 1)
            / sampleOptions.block_restart_interval.toNat))).map
          (fun j => entryOffset (BlockBuilder.create sampleOptions) sampleEntries
            (j * sampleOptions.block_restart_interval.toNat)) :=
  have h1 : BlockBuilder.create sampleOptions = BlockBuilder.create sampleOptions ∨
      ∃ b, BlockBuilder.create sampleOptions = Reset b ∧ b.options_ = sampleOptions :=
    Or.inl rfl
  have h2 : 1 ≤ sampleOptions.block_restart_interval := by decide
  have h3 : (AddAll (BlockBuilder.create sampleOptions) sampleEntries).buffer_.length
      < 2 ^ 32 := by decide
  ⟨h1, h2, h3, by decide, by decide,
    (restart_points sampleOptions (BlockBuilder.create sampleOptions) h1 h2 sampleEntries h3).1⟩

/-! ### The filter block builder -/

theorem flatten_split {α : Type} (chunks : List (List α)) (i : Nat) (hi : i < chunks.length) :
    chunks.flatten
      = (chunks.take i).flatten ++ (chunks.getD i [] ++ (chunks.drop (i + 1)).flatten) := by
  have h : chunks = chunks.take i ++ (chunks.getD i [] :: chunks.drop (i + 1)) := by
    rw [List.getD_eq_getElem?_getD, List.getElem?_eq_getElem hi, Option.getD_some,
      ← List.drop_eq_getElem_cons hi, List.take_append_drop]
  conv_lhs => rw [h]
  rw [List.flatten_append, List.flatten_cons]

theorem prefix_length_succ {α : Type} (chunks : List (List α)) (i : Nat)
    (hi : i < chunks.length) :
    (chunks.take (i + 1)).flatten.length
      = (chunks.take i).flatten.length + (chunks.getD i []).length := by
  rw [List.take_succ, List.flatten_append, List.length_append, List.getD_eq_getElem?_getD,
    List.getElem?_eq_getElem hi]
  simp

theorem prefix_length_le {α : Type} (chunks : List (List α)) (i : Nat) :
    (chunks.take i).flatten.length ≤ chunks.flatten.length := by
  conv_rhs => rw [← List.take_append_drop i chunks]
  rw [List.flatten_append, List.length_append]
  omega

theorem chunk_extract {α : Type} (chunks : List (List α)) (X : List α) (i : Nat)
    (hi : i < chunks.length) :
    ((chunks.flatten ++ X).drop (chunks.take i).flatten.length).take (chunks.getD i []).length
      = chunks.getD i [] := by
  rw [flatten_split chunks i hi, List.append_assoc, List.drop_left' rfl, List.append_assoc,
    List.take_left' rfl]

/-- The keys `GenerateFilter` rebuilds from `keys_` and `start_` are the keys
that were buffered. -/
theorem tmp_keys_eq (pending : List (List Nat)) :
    (List.range pending.length).map
        (fun i => (pending.flatten.drop
            (((List.range pending.length).map (fun i => (pending.take i).flatten.length)
              ++ [pending.flatten.length]).getD i 0)).take
          ((((List.range pending.length).map (fun i => (pending.take i).flatten.length)
              ++ [pending.flatten.length]).getD (i + 1) 0)
            - (((List.range pending.length).map (fun i => (pending.take i).flatten.length)
              ++ [pending.flatten.length]).getD i 0)))
      = pending := by
  have hstart : ∀ i, i ≤ pending.length →
      ((List.range pending.length).map (fun i => (pending.take i).flatten.length)
          ++ [pending.flatten.length]).getD i 0 = (pending.take i).flatten.length := by
    intro i hi
    have e : (List.range pending.length).map (fun i => (pending.take i).flatten.length)
        ++ [pending.flatten.length]
        = (List.range (pending.length + 1)).map (fun i => (pending.take i).flatten.length) := by
      rw [List.range_succ, List.map_append, List.map_singleton, List.take_length]
    rw [e, List.getD_eq_getElem?_getD, List.getElem?_map,
      List.getElem?_range (by omega)]
    rfl
  apply List.ext_getElem
  · simp
  · intro i h1 h2
    simp only [List.getElem_map, List.getElem_range]
    rw [hstart i (by omega), hstart (i + 1) (by omega), prefix_length_succ pending i h2,
      Nat.add_sub_cancel_left]
    have := chunk_extract pending [] i h2
    rw [List.append_nil] at this
    rw [this, List.getD_eq_getElem?_getD, List.getElem?_eq_getElem h2, Option.getD_some]

theorem Holds_create (P : FilterPolicy) : Holds P FilterBlockBuilder.create [] [] := by
  unfold Holds FilterBlockBuilder.create
  simp

theorem Holds_AddKey (P : FilterPolicy) (b : FilterBlockBuilder)
    (segs : List (List (List Nat))) (pending : List (List Nat)) (k : List Nat)
    (h : Holds P b segs pending) : Holds P (AddKey b k) segs (pending ++ [k]) := by
  obtain ⟨h1, h2, h3, h4⟩ := h
  refine ⟨?_, ?_, h3, h4⟩
  · simp only [AddKey, h1, List.flatten_append, List.flatten_cons, List.flatten_nil,
      List.append_nil]
  · simp only [AddKey, h1, h2, List.length_append, List.length_singleton]
    rw [List.range_succ, List.map_append, List.map_singleton]
    congr 1
    · apply List.map_congr_left
      intro i hi
      rw [List.take_append_of_le_length (Nat.le_of_lt (List.mem_range.mp hi))]
    · rw [List.take_left' rfl]

theorem Holds_GenerateFilter (P : FilterPolicy) (b : FilterBlockBuilder)
    (segs : List (List (List Nat))) (pending : List (List Nat))
    (h : Holds P b segs pending) : Holds P (GenerateFilter P b) (segs ++ [pending]) [] := by
  obtain ⟨h1, h2, h3, h4⟩ := h
  have hlen : b.start_.length = pending.length := by rw [h2]; simp
  have hoff : b.filter_offsets_ ++ [b.result_.length % 2 ^ 32]
      = (List.range (segs ++ [pending]).length).map
        (fun i => ((((segs ++ [pending]).map (generatedBytes P)).take i).flatten.length)
          % 2 ^ 32) := by
    rw [List.length_append, List.length_singleton, List.range_succ, List.map_append,
      List.map_singleton, h4, h3]
    congr 1
    · apply List.map_congr_left
      intro i hi
      rw [List.map_append, List.take_append_of_le_length
        (by rw [List.length_map]; exact Nat.le_of_lt (List.mem_range.mp hi))]
    · rw [List.map_append, List.take_left' (by simp)]
  unfold GenerateFilter
  by_cases h0 : b.start_.length = 0
  · have hp : pending = [] := List.length_eq_zero.mp (by omega)
    simp only [h0, if_true]
    refine ⟨?_, ?_, ?_, hoff⟩
    · simp [h1, hp]
    · simp [h2, hp]
    · simp [h3, hp, generatedBytes]
  · have hp : pending ≠ [] := fun hp => h0 (by rw [hlen, hp]; rfl)
    simp only [h0, if_false]
    refine ⟨by simp, by simp, ?_, hoff⟩
    simp only [List.map_append, List.map_singleton, List.flatten_append, List.flatten_cons,
      List.flatten_nil, List.append_nil, h3]
    congr 1
    have hg : generatedBytes P pending
        = P.CreateFilter (pending.take (toInt32 pending.length).toNat) := by
      unfold generatedBytes
      rw [if_neg (by simpa using hp)]
    rw [hg, hlen, h1, h2, tmp_keys_eq]

theorem Holds_offsets_length (P : FilterPolicy) (b : FilterBlockBuilder)
    (segs : List (List (List Nat))) (pending : List (List Nat)) (h : Holds P b segs pending) :
    b.filter_offsets_.length = segs.length := by
  rw [h.2.2.2]; simp

theorem Holds_StartBlockLoop (P : FilterPolicy) (filter_index : Nat) :
    ∀ (d : Nat) (b : FilterBlockBuilder) (segs : List (List (List Nat)))
      (pending : List (List Nat)),
      Holds P b segs pending → filter_index - segs.length = d →
      ∃ segs1 pending1, Holds P (StartBlockLoop P filter_index b) segs1 pending1 ∧
        segs1 ++ [pending1] = segs ++ [pending] ++ List.replicate (filter_index - segs.length) [] ∧
        segs1.length = max filter_index segs.length := by
  intro d
  induction d with
  | zero =>
    intro b segs pending h hd
    have hl := Holds_offsets_length P b segs pending h
    rw [StartBlockLoop_done P filter_index b (by omega)]
    refine ⟨segs, pending, h, ?_, by omega⟩
    rw [hd]; simp
  | succ d ih =>
    intro b segs pending h hd
    have hl := Holds_offsets_length P b segs pending h
    rw [StartBlockLoop_step P filter_index b (by omega)]
    obtain ⟨segs1, pending1, g1, g2, g3⟩ := ih (GenerateFilter P b) (segs ++ [pending]) []
      (Holds_GenerateFilter P b segs pending h) (by simp; omega)
    refine ⟨segs1, pending1, g1, ?_, ?_⟩
    · rw [g2]
      have e : filter_index - segs.length = (filter_index - (segs ++ [pending]).length) + 1 := by
        simp; omega
      rw [e, List.replicate_succ]
      simp
    · rw [g3]; simp; omega

theorem getD_append_replicate_nil {α : Type} (l : List (List α)) (m i : Nat) :
    (l ++ List.replicate m []).getD i [] = l.getD i [] := by
  by_cases hi : i < l.length
  · exact List.getD_append _ _ _ _ hi
  · rw [List.getD_append_right _ _ _ _ (by omega), List.getD_eq_default l [] (by omega),
      List.getD_eq_getElem?_getD]
    by_cases h2 : i - l.length < m
    · rw [List.getElem?_eq_getElem (by simpa using h2)]; simp
    · rw [List.getElem?_eq_none (by simpa using h2)]; rfl

theorem getD_append_pending {α : Type} (segs : List (List α)) (pending : List α) (k : α)
    (i : Nat) :
    (segs ++ [pending ++ [k]]).getD i []
      = (segs ++ [pending]).getD i [] ++ (if segs.length = i then [k] else []) := by
  by_cases hi : i < segs.length
  · rw [List.getD_append _ _ _ _ hi, List.getD_append _ _ _ _ hi, if_neg (by omega),
      List.append_nil]
  · rw [List.getD_append_right _ _ _ _ (by omega), List.getD_append_right _ _ _ _ (by omega)]
    by_cases he : segs.length = i
    · rw [if_pos he, ← he]; simp
    · rw [if_neg he]
      have : i - segs.length = (i - segs.length - 1) + 1 := by omega
      rw [this]
      simp

/-- The builder after a sequence of calls: segment `i`, or the buffered keys
for the current index, holds the keys added while the index was `i`. -/
theorem Holds_runCalls (P : FilterPolicy) :
    ∀ (calls : List FilterCall) (b : FilterBlockBuilder) (segs : List (List (List Nat)))
      (pending : List (List Nat)),
      Holds P b segs pending → callsAssert P b calls = true →
      ∃ segs1 pending1, Holds P (runCalls P b calls) segs1 pending1 ∧
        segs1.length = lastIndex calls segs.length ∧
        ∀ i, (segs1 ++ [pending1]).getD i []
          = (segs ++ [pending]).getD i [] ++ segmentKeys calls segs.length i := by
  intro calls
  induction calls with
  | nil =>
    intro b segs pending h _
    exact ⟨segs, pending, h, rfl, fun i => by simp [segmentKeys]⟩
  | cons call calls ih =>
    intro b segs pending h ha
    cases call with
    | startBlock o =>
      simp only [callsAssert, Bool.and_eq_true, StartBlockAssert, decide_eq_true_eq] at ha
      have hl := Holds_offsets_length P b segs pending h
      obtain ⟨segs1, pending1, g1, g2, g3⟩ := Holds_StartBlockLoop P (o / kFilterBase) _ b segs
        pending h rfl
      have g3' : segs1.length = o / kFilterBase := by omega
      obtain ⟨segs2, pending2, k1, k2, k3⟩ := ih (StartBlock P b o) segs1 pending1 g1 ha.2
      refine ⟨segs2, pending2, k1, ?_, fun i => ?_⟩
      · rw [k2, g3']; rfl
      · rw [k3 i, g2, getD_append_replicate_nil, g3']; rfl
    | addKey k =>
      simp only [callsAssert] at ha
      obtain ⟨segs2, pending2, k1, k2, k3⟩ := ih (AddKey b k) segs (pending ++ [k])
        (Holds_AddKey P b segs pending k h) ha
      refine ⟨segs2, pending2, k1, by rw [k2]; rfl, fun i => ?_⟩
      rw [k3 i, getD_append_pending, List.append_assoc]
      rfl

/-! ### The finished filter block and its reader -/

theorem foldl_PutFixed32_eq : ∀ (l acc : List Nat),
    l.foldl (fun acc r => PutFixed32 acc r) acc = acc ++ (l.map EncodeFixed32).flatten := by
  intro l
  induction l with
  | nil => intro acc; simp
  | cons r l ih =>
    intro acc
    rw [List.foldl_cons, ih, PutFixed32, List.map_cons, List.flatten_cons, List.append_assoc]

theorem fixed32_table_length (l : List Nat) : (l.map EncodeFixed32).flatten.length = 4 * l.length := by
  induction l with
  | nil => rfl
  | cons r l ih =>
    rw [List.map_cons, List.flatten_cons, List.length_append, ih, EncodeFixed32_length,
      List.length_cons]
    omega

theorem fixed32_table_lookup : ∀ (l : List Nat) (post : List Nat) (i : Nat), i < l.length →
    DecodeFixed32 ((l.map EncodeFixed32).flatten ++ post) (4 * i) = l.getD i 0 % 2 ^ 32 := by
  intro l
  induction l with
  | nil => intro post i hi; simp at hi
  | cons r l ih =>
    intro post i hi
    rw [List.map_cons, List.flatten_cons, List.append_assoc]
    cases i with
    | zero =>
      have := DecodeFixed32_encode [] ((l.map EncodeFixed32).flatten ++ post) r
      simpa using this
    | succ i =>
      have e : 4 * (i + 1) = (EncodeFixed32 r).length + 4 * i := by
        rw [EncodeFixed32_length]; omega
      rw [e, DecodeFixed32_append, ih post i (by simpa using hi)]
      simp

theorem finish_layout (P : FilterPolicy) (b1 : FilterBlockBuilder)
    (segsF : List (List (List Nat))) (pendingF : List (List Nat))
    (h : Holds P b1 segsF pendingF) :
    PutFixed32 (b1.filter_offsets_.foldl (fun acc o => PutFixed32 acc o) b1.result_)
        (b1.result_.length % 2 ^ 32) ++ [kFilterBaseLg % 256]
      = ((segsF.map (generatedBytes P)).flatten
        ++ (((List.range (segsF.length + 1)).map
            (fun i => (((segsF.map (generatedBytes P)).take i).flatten.length) % 2 ^ 32)).map
              EncodeFixed32).flatten)
        ++ [11] := by
  obtain ⟨_, _, h3, h4⟩ := h
  have hfull : (segsF.map (generatedBytes P)).take segsF.length = segsF.map (generatedBytes P) :=
    List.take_of_length_le (by simp)
  rw [foldl_PutFixed32_eq, PutFixed32, h4, h3, List.range_succ, List.map_append,
    List.map_append, List.flatten_append, List.map_singleton, List.map_singleton,
    List.flatten_singleton, hfull]
  have hlg : kFilterBaseLg % 256 = 11 := rfl
  rw [hlg]
  simp only [List.append_assoc]

/-- The bytes `Finish` returns when the builder holds `segs` and `pending`. -/
theorem FilterFinish_bytes (P : FilterPolicy) (b : FilterBlockBuilder)
    (segs : List (List (List Nat))) (pending : List (List Nat)) (h : Holds P b segs pending) :
    FilterBlockBuilder.Finish P b
      = (((if pending.isEmpty then segs else segs ++ [pending]).map (generatedBytes P)).flatten
        ++ (((List.range ((if pending.isEmpty then segs else segs ++ [pending]).length + 1)).map
            (fun i => ((((if pending.isEmpty then segs else segs ++ [pending]).map
              (generatedBytes P)).take i).flatten.length) % 2 ^ 32)).map EncodeFixed32).flatten)
        ++ [11] := by
  have hb1 : Holds P (if ¬ b.start_.isEmpty then GenerateFilter P b else b)
      (if pending.isEmpty then segs else segs ++ [pending]) [] := by
    have hs : b.start_.isEmpty = pending.isEmpty := by
      rw [h.2.1]
      cases pending <;> simp [List.range_succ]
    rw [hs]
    by_cases hp : pending.isEmpty
    · have : pending = [] := by simpa using hp
      subst this
      simpa using h
    · simp only [hp, not_false_eq_true, if_true, Bool.false_eq_true, if_false]
      exact Holds_GenerateFilter P b segs pending h
  exact finish_layout P _ _ [] hb1

/-- The reader over a block laid out as `Finish` lays it out: the chunks, the
table of their start offsets closed by the array offset, and the byte 11. -/
theorem reader_of_layout (P : FilterPolicy) (chunks : List (List Nat))
    (hsize : (chunks.flatten
      ++ (((List.range (chunks.length + 1)).map
          (fun i => ((chunks.take i).flatten.length) % 2 ^ 32)).map EncodeFixed32).flatten
      ++ [11]).length < 2 ^ 32) :
    (∀ i, i ≤ chunks.length →
      DecodeFixed32 (chunks.flatten
        ++ (((List.range (chunks.length + 1)).map
            (fun i => ((chunks.take i).flatten.length) % 2 ^ 32)).map EncodeFixed32).flatten
        ++ [11]) (chunks.flatten.length + i * 4) = (chunks.take i).flatten.length) ∧
    FilterBlockReader.create P (chunks.flatten
        ++ (((List.range (chunks.length + 1)).map
            (fun i => ((chunks.take i).flatten.length) % 2 ^ 32)).map EncodeFixed32).flatten
        ++ [11])
      = ⟨P, some (chunks.flatten
        ++ (((List.range (chunks.length + 1)).map
            (fun i => ((chunks.take i).flatten.length) % 2 ^ 32)).map EncodeFixed32).flatten
        ++ [11]), chunks.flatten.length, chunks.length, 11⟩ := by
  generalize htab : (List.range (chunks.length + 1)).map
    (fun i => ((chunks.take i).flatten.length) % 2 ^ 32) = offs at hsize ⊢
  have hoffs : offs.length = chunks.length + 1 := by rw [← htab]; simp
  have htl := fixed32_table_length offs
  have hn : (chunks.flatten ++ (offs.map EncodeFixed32).flatten ++ [11]).length
      = chunks.flatten.length + 4 * (chunks.length + 1) + 1 := by
    simp only [List.length_append, htl, hoffs, List.length_singleton]
  rw [hn] at hsize
  have hlook : ∀ i, i ≤ chunks.length →
      DecodeFixed32 (chunks.flatten ++ (offs.map EncodeFixed32).flatten ++ [11])
        (chunks.flatten.length + i * 4) = (chunks.take i).flatten.length := by
    intro i hi
    rw [List.append_assoc, DecodeFixed32_append, Nat.mul_comm,
      fixed32_table_lookup offs [11] i (by omega), ← htab, List.getD_eq_getElem?_getD,
      List.getElem?_map, List.getElem?_range (by omega)]
    simp only [Option.map_some', Option.getD_some, Nat.mod_mod]
    apply Nat.mod_eq_of_lt
    have := prefix_length_le chunks i
    omega
  refine ⟨hlook, ?_⟩
  have hlast := hlook chunks.length (le_refl _)
  rw [List.take_length] at hlast
  have h11 : (chunks.flatten ++ (offs.map EncodeFixed32).flatten ++ [11]).getD
      (chunks.flatten.length + 4 * (chunks.length + 1) + 1 - 1) 0 = 11 := by
    rw [List.getD_append_right _ _ _ _ (by simp only [List.length_append, htl, hoffs]; omega)]
    simp only [List.length_append, htl, hoffs]
    have : chunks.flatten.length + 4 * (chunks.length + 1) + 1 - 1
        - (chunks.flatten.length + 4 * (chunks.length + 1)) = 0 := by omega
    rw [this]
    rfl
  have e5 : chunks.flatten.length + 4 * (chunks.length + 1) + 1 - 5
      = chunks.flatten.length + chunks.length * 4 := by omega
  unfold FilterBlockReader.create
  simp only [hn, e5, hlast, h11]
  rw [if_neg (by omega), if_neg (by omega)]
  have hq : (chunks.flatten.length + chunks.length * 4 - chunks.flatten.length) / 4
      = chunks.length := by
    rw [Nat.add_sub_cancel_left, Nat.mul_div_cancel _ (by norm_num)]
  rw [hq]

/-- `KeyMayMatch` on such a block, for an index in range: the policy is asked
about exactly the chunk of that index. -/
theorem KeyMayMatch_of_layout (P : FilterPolicy) (chunks : List (List Nat))
    (hsize : (chunks.flatten
      ++ (((List.range (chunks.length + 1)).map
          (fun i => ((chunks.take i).flatten.length) % 2 ^ 32)).map EncodeFixed32).flatten
      ++ [11]).length < 2 ^ 32)
    (block_offset : Nat) (key : List Nat) (hi : block_offset >>> 11 < chunks.length) :
    (FilterBlockReader.create P (chunks.flatten
        ++ (((List.range (chunks.length + 1)).map
            (fun i => ((chunks.take i).flatten.length) % 2 ^ 32)).map EncodeFixed32).flatten
        ++ [11])).KeyMayMatch block_offset key
      = P.KeyMayMatch key (chunks.getD (block_offset >>> 11) []) := by
  obtain ⟨hlook, hr⟩ := reader_of_layout P chunks hsize
  rw [hr]
  have h1 := hlook (block_offset >>> 11) (by omega)
  have h2 := hlook (block_offset >>> 11 + 1) (by omega)
  have hs := prefix_length_succ chunks (block_offset >>> 11) hi
  have hle := prefix_length_le chunks (block_offset >>> 11 + 1)
  have e : chunks.flatten.length + (block_offset >>> 11 + 1) * 4
      = chunks.flatten.length + block_offset >>> 11 * 4 + 4 := by ring
  rw [e] at h2
  simp only [FilterBlockReader.KeyMayMatch, hi, if_true, Option.getD_some, h1, h2]
  rw [if_pos ⟨by omega, hle⟩, hs, Nat.add_sub_cancel_left, List.append_assoc,
    chunk_extract chunks _ _ hi]

/-! ### Segments of the finished filter block -/

theorem segmentKeys_mem_mid (k : List Nat) (post : List FilterCall) (i : Nat) :
    ∀ (mid : List (List Nat)),
      k ∈ segmentKeys (mid.map FilterCall.addKey ++ FilterCall.addKey k :: post) i i := by
  intro mid
  induction mid with
  | nil => simp [segmentKeys]
  | cons m mid ih =>
    show k ∈ (if i = i then [m] else [])
      ++ segmentKeys (mid.map FilterCall.addKey ++ FilterCall.addKey k :: post) i i
    exact List.mem_append_right _ ih

theorem segmentKeys_mem (o : Nat) (mid : List (List Nat)) (k : List Nat)
    (post : List FilterCall) :
    ∀ (pre : List FilterCall) (cur : Nat),
      k ∈ segmentKeys (pre ++ FilterCall.startBlock o ::
        (mid.map FilterCall.addKey ++ FilterCall.addKey k :: post)) cur (o / kFilterBase) := by
  intro pre
  induction pre with
  | nil =>
    intro cur
    simp only [List.nil_append, segmentKeys]
    exact segmentKeys_mem_mid k post _ mid
  | cons call pre ih =>
    intro cur
    cases call with
    | startBlock o2 =>
      simp only [List.cons_append, segmentKeys]
      exact ih _
    | addKey k2 =>
      show k ∈ (if cur = o / kFilterBase then [k2] else [])
        ++ segmentKeys (pre ++ FilterCall.startBlock o ::
          (mid.map FilterCall.addKey ++ FilterCall.addKey k :: post)) cur (o / kFilterBase)
      exact List.mem_append_right _ (ih _)

theorem getD_map_generatedBytes (P : FilterPolicy) (segs : List (List (List Nat))) (i : Nat) :
    (segs.map (generatedBytes P)).getD i [] = generatedBytes P (segs.getD i []) := by
  rw [List.getD_eq_getElem?_getD, List.getD_eq_getElem?_getD, List.getElem?_map]
  cases segs[i]? with
  | none => simp [generatedBytes]
  | some x => simp

theorem generatedBytes_eq_segmentFilter (P : FilterPolicy) (keys : List (List Nat))
    (h : keys.length < 2 ^ 31) : generatedBytes P keys = segmentFilter P keys := by
  unfold generatedBytes segmentFilter toInt32
  have h1 : keys.length % 2 ^ 32 = keys.length := Nat.mod_eq_of_lt (by omega)
  rw [h1, if_pos h]
  simp

/-- The block `Finish` returns after a sequence of calls whose `StartBlock`
assertions hold: it is laid out over segments `segsF`, segment `i` holding
the keys added while the index was `i`, and there is a segment for the last
index exactly when keys were added for it. -/
theorem finished_block (P : FilterPolicy) (calls : List FilterCall)
    (hassert : callsAssert P FilterBlockBuilder.create calls = true) :
    ∃ segsF : List (List (List Nat)),
      FilterBlockBuilder.Finish P (runCalls P FilterBlockBuilder.create calls)
        = ((segsF.map (generatedBytes P)).flatten
          ++ (((List.range ((segsF.map (generatedBytes P)).length + 1)).map
              (fun i => (((segsF.map (generatedBytes P)).take i).flatten.length) % 2 ^ 32)).map
                EncodeFixed32).flatten)
          ++ [11] ∧
      (∀ i, segsF.getD i [] = segmentKeys calls 0 i) ∧
      segsF.length = lastIndex calls 0
        + (if (segmentKeys calls 0 (lastIndex calls 0)).isEmpty then 0 else 1) := by
  obtain ⟨segs1, pending1, h1, h2, h3⟩ := Holds_runCalls P calls FilterBlockBuilder.create [] []
    (Holds_create P) hassert
  rw [List.length_nil] at h2
  have h3' : ∀ i, (segs1 ++ [pending1]).getD i [] = segmentKeys calls 0 i := by
    intro i
    rw [h3 i]
    have : ([] ++ [([] : List (List Nat))]).getD i [] = [] := by
      cases i <;> simp
    rw [this, List.nil_append]
    rfl
  have hp : pending1 = segmentKeys calls 0 (lastIndex calls 0) := by
    have := h3' segs1.length
    rw [List.getD_append_right _ _ _ _ (le_refl _), Nat.sub_self] at this
    rw [← h2]
    simpa using this
  refine ⟨if pending1.isEmpty then segs1 else segs1 ++ [pending1], ?_, ?_, ?_⟩
  · rw [FilterFinish_bytes P _ segs1 pending1 h1, List.length_map]
  · intro i
    rw [← h3' i]
    by_cases he : pending1.isEmpty
    · have : pending1 = [] := by simpa using he
      rw [if_pos he, this]
      exact (getD_append_replicate_nil segs1 1 i).symm
    · rw [if_neg he]
  · rw [← hp]
    by_cases he : pending1.isEmpty
    · rw [if_pos he, if_pos he, h2]; rfl
    · rw [if_neg he, if_neg he, List.length_append, h2]; rfl

/-- C5 as amended: for every filter policy whose `KeyMayMatch(k,
CreateFilter(keys))` is true for every `k` in `keys`, for every sequence of
`StartBlock` / `AddKey` calls whose `StartBlock` assertions hold, followed by
`Finish`, such that the finished block is below 2^32 bytes and fewer than
2^31 keys are added for any one filter index: for every key `k` added by
`AddKey` while the most recent `StartBlock` offset was `o`, the reader built
over the result of `Finish` returns `KeyMayMatch(o', k) = true` for every
`o'` with `o' >> 11 = o >> 11`. -/
theorem filter_no_false_negative (P : FilterPolicy)
    (hP : ∀ keys k, k ∈ keys → P.KeyMayMatch k (P.CreateFilter keys) = true)
    (calls : List FilterCall)
    (hassert : callsAssert P FilterBlockBuilder.create calls = true)
    (hsize : (FilterBlockBuilder.Finish P (runCalls P FilterBlockBuilder.create calls)).length
      < 2 ^ 32)
    (hkeys : ∀ i, (segmentKeys calls 0 i).length < 2 ^ 31)
    (pre : List FilterCall) (o : Nat) (mid : List (List Nat)) (k : List Nat)
    (post : List FilterCall)
    (hcalls : calls = pre ++ FilterCall.startBlock o ::
      (mid.map FilterCall.addKey ++ FilterCall.addKey k :: post))
    (o' : Nat) (ho : o' >>> 11 = o >>> 11) :
    (FilterBlockReader.create P
      (FilterBlockBuilder.Finish P (runCalls P FilterBlockBuilder.create calls))).KeyMayMatch
        o' k = true := by
  obtain ⟨segsF, hblock, hseg, _⟩ := finished_block P calls hassert
  have hmem : k ∈ segmentKeys calls 0 (o' >>> 11) := by
    have := segmentKeys_mem o mid k post pre 0
    rw [← hcalls] at this
    have e : o / kFilterBase = o' >>> 11 := by
      rw [ho]; simp [kFilterBase, kFilterBaseLg, Nat.shiftRight_eq_div_pow]
    rw [e] at this
    exact this
  have hin : o' >>> 11 < (segsF.map (generatedBytes P)).length := by
    rw [List.length_map]
    by_contra hge
    have := hseg (o' >>> 11)
    rw [List.getD_eq_default _ _ (by omega)] at this
    rw [← this] at hmem
    simp at hmem
  rw [hblock] at hsize ⊢
  rw [KeyMayMatch_of_layout P _ hsize o' k hin, getD_map_generatedBytes, hseg,
    generatedBytes_eq_segmentFilter P _ (hkeys _)]
  unfold segmentFilter
  have hne : (segmentKeys calls 0 (o' >>> 11)).isEmpty = false := by
    cases h : segmentKeys calls 0 (o' >>> 11) with
    | nil => rw [h] at hmem; simp at hmem
    | cons a l => rfl
  rw [hne]
  exact hP _ _ hmem

theorem filter_no_false_negative_witness :
    (firstBytePolicy.KeyMayMatch [104, 105]
      (firstBytePolicy.CreateFilter [[104, 105]]) = true) ∧
    (FilterBlockReader.create firstBytePolicy
      (FilterBlockBuilder.Finish firstBytePolicy (runCalls firstBytePolicy
        FilterBlockBuilder.create
        [FilterCall.startBlock 10, FilterCall.addKey [104, 105]]))).KeyMayMatch 0 [104, 105]
      = true :=
  have hP : ∀ keys k, k ∈ keys →
      firstBytePolicy.KeyMayMatch k (firstBytePolicy.CreateFilter keys) = true := by
    intro keys k hk
    simp only [firstBytePolicy, List.contains_eq_any_beq, List.any_eq_true, List.mem_map,
      beq_iff_eq]
    exact ⟨k.headD 0, ⟨k, hk, rfl⟩, rfl⟩
  have hA : callsAssert firstBytePolicy FilterBlockBuilder.create
      [FilterCall.startBlock 10, FilterCall.addKey [104, 105]] = true := by
    simp [callsAssert, StartBlockAssert, FilterBlockBuilder.create, kFilterBase, kFilterBaseLg]
  have hS : StartBlock firstBytePolicy FilterBlockBuilder.create 10
      = FilterBlockBuilder.create := by
    unfold StartBlock
    apply StartBlockLoop_done
    simp [FilterBlockBuilder.create, kFilterBase, kFilterBaseLg]
  have hsize : (FilterBlockBuilder.Finish firstBytePolicy (runCalls firstBytePolicy
      FilterBlockBuilder.create
      [FilterCall.startBlock 10, FilterCall.addKey [104, 105]])).length < 2 ^ 32 := by
    have hrun : runCalls firstBytePolicy FilterBlockBuilder.create
        [FilterCall.startBlock 10, FilterCall.addKey [104, 105]]
        = ⟨[104, 105], [0], [], []⟩ := by
      simp only [runCalls, hS]
      rfl
    rw [hrun]
    simp [FilterBlockBuilder.Finish, GenerateFilter, PutFixed32, EncodeFixed32,
      firstBytePolicy]
    omega
  have hkeys : ∀ i, (segmentKeys [FilterCall.startBlock 10, FilterCall.addKey [104, 105]]
      0 i).length < 2 ^ 31 := by
    intro i
    simp only [segmentKeys]
    split_ifs <;> simp
  ⟨hP [[104, 105]] [104, 105] (by simp),
    filter_no_false_negative firstBytePolicy hP _ hA hsize hkeys [] 10 [] [104, 105] [] rfl 0
      (by simp)⟩

theorem getD_replicate_append (N : Nat) (X : List Nat) (i : Nat) (h : i < N) :
    (List.replicate N 0 ++ X).getD i 0 = 0 := by
  rw [List.getD_append _ _ _ _ (by simpa using h), List.getD_eq_getElem?_getD,
    List.getElem?_replicate]
  simp [h]

/-- A filter of `N` bytes, `N` a multiple of 2^32: the array offset stored in
the block is `N` reduced to 32 bits, 0, so the reader takes the first bytes of
the filter for the offset array, finds an empty segment and asks the policy
about the empty filter. -/
theorem big_filter_false_negative_general (N : Nat) (hN : N % 2 ^ 32 = 0) (h8 : 8 ≤ N) :
    (∀ keys k, k ∈ keys →
      (bigFilterPolicy N).KeyMayMatch k ((bigFilterPolicy N).CreateFilter keys) = true) ∧
    callsAssert (bigFilterPolicy N) FilterBlockBuilder.create
      [FilterCall.startBlock 0, FilterCall.addKey []] = true ∧
    (FilterBlockReader.create (bigFilterPolicy N)
      (FilterBlockBuilder.Finish (bigFilterPolicy N) (runCalls (bigFilterPolicy N)
        FilterBlockBuilder.create
        [FilterCall.startBlock 0, FilterCall.addKey []]))).KeyMayMatch 0 [] = false := by
  have hS : StartBlock (bigFilterPolicy N) FilterBlockBuilder.create 0
      = FilterBlockBuilder.create := by
    unfold StartBlock
    apply StartBlockLoop_done
    simp [FilterBlockBuilder.create]
  have hrun : runCalls (bigFilterPolicy N) FilterBlockBuilder.create
      [FilterCall.startBlock 0, FilterCall.addKey []] = ⟨[], [0], [], []⟩ := by
    simp only [runCalls, hS]
    rfl
  have hfin : FilterBlockBuilder.Finish (bigFilterPolicy N) ⟨[], [0], [], []⟩
      = List.replicate N 0 ++ ([0, 0, 0, 0] ++ ([0, 0, 0, 0] ++ [11])) := by
    have hN' : N % 4294967296 = 0 := hN
    simp [FilterBlockBuilder.Finish, GenerateFilter, PutFixed32, EncodeFixed32,
      bigFilterPolicy, hN', kFilterBaseLg]
  refine ⟨?_, ?_, ?_⟩
  · intro keys k _
    simp [bigFilterPolicy]
  · simp [callsAssert, StartBlockAssert, FilterBlockBuilder.create]
  · rw [hrun, hfin]
    have hlen : (List.replicate N 0 ++ ([0, 0, 0, 0] ++ ([0, 0, 0, 0] ++ [11]))).length
        = N + 9 := by simp
    have hd0 : DecodeFixed32 (List.replicate N 0 ++ ([0, 0, 0, 0] ++ ([0, 0, 0, 0] ++ [11]))) 0
        = 0 := by
      unfold DecodeFixed32
      rw [getD_replicate_append _ _ _ (by omega), getD_replicate_append _ _ _ (by omega),
        getD_replicate_append _ _ _ (by omega), getD_replicate_append _ _ _ (by omega)]
      rfl
    have hd4 : DecodeFixed32 (List.replicate N 0 ++ ([0, 0, 0, 0] ++ ([0, 0, 0, 0] ++ [11]))) 4
        = 0 := by
      unfold DecodeFixed32
      rw [getD_replicate_append _ _ _ (by omega), getD_replicate_append _ _ _ (by omega),
        getD_replicate_append _ _ _ (by omega), getD_replicate_append _ _ _ (by omega)]
      rfl
    have hdl : DecodeFixed32 (List.replicate N 0 ++ ([0, 0, 0, 0] ++ ([0, 0, 0, 0] ++ [11])))
        (N + 9 - 5) = 0 := by
      have := DecodeFixed32_encode (List.replicate N 0 ++ [0, 0, 0, 0]) [11] 0
      have e : (List.replicate N 0 ++ [0, 0, 0, 0]).length = N + 9 - 5 := by simp
      rw [e] at this
      simpa [EncodeFixed32] using this
    have hlg : (List.replicate N 0 ++ ([0, 0, 0, 0] ++ ([0, 0, 0, 0] ++ [11]))).getD
        (N + 9 - 1) 0 = 11 := by
      rw [List.getD_append_right _ _ _ _ (by simp)]
      have e : N + 9 - 1 - (List.replicate N 0).length = 8 := by simp
      rw [e]
      rfl
    have hcreate : FilterBlockReader.create (bigFilterPolicy N)
        (List.replicate N 0 ++ ([0, 0, 0, 0] ++ ([0, 0, 0, 0] ++ [11])))
        = ⟨bigFilterPolicy N,
            some (List.replicate N 0 ++ ([0, 0, 0, 0] ++ ([0, 0, 0, 0] ++ [11]))),
            0, (N + 9 - 5 - 0) / 4, 11⟩ := by
      unfold FilterBlockReader.create
      simp only [hlen, hdl, hlg]
      rw [if_neg (by omega), if_neg (by omega)]
    rw [hcreate]
    have hnum : 0 < (N + 9 - 5 - 0) / 4 := by omega
    simp only [FilterBlockReader.KeyMayMatch, Nat.zero_shiftRight, hnum, if_true,
      Option.getD_some, Nat.zero_mul, Nat.zero_add, hd0, hd4]
    simp only [le_refl, and_self, if_true, Nat.sub_self, List.take_zero]
    have hne : ¬ (0 = N) := by omega
    simp [bigFilterPolicy, hne]

/-- C5 as stated fails: a policy whose filters are 2^32 zero bytes, and which
matches a key against a filter exactly when the filter has 2^32 bytes, meets
the no-false-negative contract; after `StartBlock(0)`, `AddKey("")`,
`Finish`, the reader answers `KeyMayMatch(0, "") = false`. -/
theorem big_filter_false_negative :
    (∀ keys k, k ∈ keys →
      (bigFilterPolicy (2 ^ 32)).KeyMayMatch k
        ((bigFilterPolicy (2 ^ 32)).CreateFilter keys) = true) ∧
    callsAssert (bigFilterPolicy (2 ^ 32)) FilterBlockBuilder.create
      [FilterCall.startBlock 0, FilterCall.addKey []] = true ∧
    (FilterBlockReader.create (bigFilterPolicy (2 ^ 32))
      (FilterBlockBuilder.Finish (bigFilterPolicy (2 ^ 32)) (runCalls (bigFilterPolicy (2 ^ 32))
        FilterBlockBuilder.create
        [FilterCall.startBlock 0, FilterCall.addKey []]))).KeyMayMatch 0 [] = false :=
  big_filter_false_negative_general (2 ^ 32) (Nat.mod_self _) (by norm_num)

/-- C13 as stated fails: after `StartBlock(0)`, `AddKey("a")`,
`StartBlock(100)`, `Finish`, no key was added after the last `StartBlock`
and its offset divided by 2048 is 0, yet the reader parses one segment: the
key buffered before `StartBlock(100)` stays buffered (the filter index did
not advance) and is flushed by `Finish`. -/
theorem segment_count_counts_buffered_keys :
    callsAssert firstBytePolicy FilterBlockBuilder.create
      [FilterCall.startBlock 0, FilterCall.addKey [97], FilterCall.startBlock 100] = true ∧
    FilterBlockBuilder.Finish firstBytePolicy (runCalls firstBytePolicy FilterBlockBuilder.create
      [FilterCall.startBlock 0, FilterCall.addKey [97], FilterCall.startBlock 100])
      = [97, 0, 0, 0, 0, 1, 0, 0, 0, 11] ∧
    keysAfterLastStart
      [FilterCall.startBlock 0, FilterCall.addKey [97], FilterCall.startBlock 100] [] = [] ∧
    lastIndex [FilterCall.startBlock 0, FilterCall.addKey [97], FilterCall.startBlock 100] 0
      = 0 ∧
    (FilterBlockReader.create firstBytePolicy [97, 0, 0, 0, 0, 1, 0, 0, 0, 11]).num_ = 1 := by
  have hS0 : StartBlock firstBytePolicy FilterBlockBuilder.create 0
      = FilterBlockBuilder.create := by
    unfold StartBlock
    apply StartBlockLoop_done
    simp [FilterBlockBuilder.create]
  have hS1 : StartBlock firstBytePolicy (AddKey FilterBlockBuilder.create [97]) 100
      = AddKey FilterBlockBuilder.create [97] := by
    unfold StartBlock
    apply StartBlockLoop_done
    simp [FilterBlockBuilder.create, AddKey, kFilterBase, kFilterBaseLg]
  have hrun : runCalls firstBytePolicy FilterBlockBuilder.create
      [FilterCall.startBlock 0, FilterCall.addKey [97], FilterCall.startBlock 100]
      = ⟨[97], [0], [], []⟩ := by
    simp only [runCalls, hS0, hS1]
    rfl
  refine ⟨?_, ?_, rfl, ?_, ?_⟩
  · simp only [callsAssert, hS0]
    simp [StartBlockAssert, AddKey, FilterBlockBuilder.create]
  · rw [hrun]
    simp [FilterBlockBuilder.Finish, GenerateFilter, PutFixed32, EncodeFixed32,
      firstBytePolicy, toInt32, kFilterBaseLg, List.range_succ]
  · simp [lastIndex, kFilterBase, kFilterBaseLg]
  · simp [FilterBlockReader.create, DecodeFixed32]

/-- C13 as amended: for every filter policy and every sequence of `StartBlock`
/ `AddKey` calls whose `StartBlock` assertions hold, followed by `Finish`,
with the result below 2^32 bytes and fewer than 2^31 keys added for any one
filter index: the reader built over the result parses `base_lg = 11` and a
segment count equal to the index (offset / 2048) of the last `StartBlock`,
plus 1 if any key was added while the index of the most recent `StartBlock`
(0 before the first) equalled that last index; and for every `i` below the
count the offsets `offset[i] <= offset[i+1]` lie in the data region and the
bytes `[offset[i], offset[i+1])` of the block are `CreateFilter` applied to
the keys, in insertion order, added while the index equalled `i`, and the
empty range when there is no such key. -/
theorem segment_coverage (P : FilterPolicy) (calls : List FilterCall)
    (hassert : callsAssert P FilterBlockBuilder.create calls = true)
    (hsize : (FilterBlockBuilder.Finish P (runCalls P FilterBlockBuilder.create calls)).length
      < 2 ^ 32)
    (hkeys : ∀ i, (segmentKeys calls 0 i).length < 2 ^ 31) :
    (FilterBlockReader.create P
      (FilterBlockBuilder.Finish P (runCalls P FilterBlockBuilder.create calls))).base_lg_ = 11 ∧
    (FilterBlockReader.create P
      (FilterBlockBuilder.Finish P (runCalls P FilterBlockBuilder.create calls))).num_
      = lastIndex calls 0
        + (if (segmentKeys calls 0 (lastIndex calls 0)).isEmpty then 0 else 1) ∧
    ∀ i, i < (FilterBlockReader.create P
        (FilterBlockBuilder.Finish P (runCalls P FilterBlockBuilder.create calls))).num_ →
      DecodeFixed32 (FilterBlockBuilder.Finish P (runCalls P FilterBlockBuilder.create calls))
          ((FilterBlockReader.create P (FilterBlockBuilder.Finish P
            (runCalls P FilterBlockBuilder.create calls))).offset_ + i * 4)
        ≤ DecodeFixed32 (FilterBlockBuilder.Finish P (runCalls P FilterBlockBuilder.create calls))
          ((FilterBlockReader.create P (FilterBlockBuilder.Finish P
            (runCalls P FilterBlockBuilder.create calls))).offset_ + i * 4 + 4) ∧
      DecodeFixed32 (FilterBlockBuilder.Finish P (runCalls P FilterBlockBuilder.create calls))
          ((FilterBlockReader.create P (FilterBlockBuilder.Finish P
            (runCalls P FilterBlockBuilder.create calls))).offset_ + i * 4 + 4)
        ≤ (FilterBlockReader.create P (FilterBlockBuilder.Finish P
            (runCalls P FilterBlockBuilder.create calls))).offset_ ∧
      ((FilterBlockBuilder.Finish P (runCalls P FilterBlockBuilder.create calls)).drop
          (DecodeFixed32 (FilterBlockBuilder.Finish P
            (runCalls P FilterBlockBuilder.create calls))
            ((FilterBlockReader.create P (FilterBlockBuilder.Finish P
              (runCalls P FilterBlockBuilder.create calls))).offset_ + i * 4))).take
          (DecodeFixed32 (FilterBlockBuilder.Finish P
            (runCalls P FilterBlockBuilder.create calls))
            ((FilterBlockReader.create P (FilterBlockBuilder.Finish P
              (runCalls P FilterBlockBuilder.create calls))).offset_ + i * 4 + 4)
          - DecodeFixed32 (FilterBlockBuilder.Finish P
            (runCalls P FilterBlockBuilder.create calls))
            ((FilterBlockReader.create P (FilterBlockBuilder.Finish P
              (runCalls P FilterBlockBuilder.create calls))).offset_ + i * 4))
        = segmentFilter P (segmentKeys calls 0 i) := by
  obtain ⟨segsF, hblock, hseg, hcount⟩ := finished_block P calls hassert
  rw [hblock] at hsize ⊢
  obtain ⟨hlook, hr⟩ := reader_of_layout P (segsF.map (generatedBytes P)) hsize
  rw [hr]
  simp only
  refine ⟨trivial, by rw [List.length_map, hcount], ?_⟩
  intro i hi
  have h1 := hlook i (by omega)
  have h2 := hlook (i + 1) (by omega)
  have e : (segsF.map (generatedBytes P)).flatten.length + (i + 1) * 4
      = (segsF.map (generatedBytes P)).flatten.length + i * 4 + 4 := by ring
  rw [e] at h2
  have hs := prefix_length_succ (segsF.map (generatedBytes P)) i hi
  have hle := prefix_length_le (segsF.map (generatedBytes P)) (i + 1)
  rw [h1, h2]
  refine ⟨by omega, hle, ?_⟩
  rw [hs, Nat.add_sub_cancel_left, List.append_assoc,
    chunk_extract (segsF.map (generatedBytes P)) _ _ hi, getD_map_generatedBytes, hseg,
    generatedBytes_eq_segmentFilter P _ (hkeys _)]

theorem sample_calls_run :
    runCalls firstBytePolicy FilterBlockBuilder.create
      [FilterCall.startBlock 10, FilterCall.addKey [104, 105]] = ⟨[104, 105], [0], [], []⟩ := by
  have hS : StartBlock firstBytePolicy FilterBlockBuilder.create 10
      = FilterBlockBuilder.create := by
    unfold StartBlock
    apply StartBlockLoop_done
    simp [FilterBlockBuilder.create, kFilterBase, kFilterBaseLg]
  simp only [runCalls, hS]
  rfl

theorem sample_calls_size :
    (FilterBlockBuilder.Finish firstBytePolicy (runCalls firstBytePolicy
      FilterBlockBuilder.create
      [FilterCall.startBlock 10, FilterCall.addKey [104, 105]])).length < 2 ^ 32 := by
  rw [sample_calls_run]
  simp [FilterBlockBuilder.Finish, GenerateFilter, PutFixed32, EncodeFixed32, firstBytePolicy]
  omega

theorem sample_calls_keys :
    ∀ i, (segmentKeys [FilterCall.startBlock 10, FilterCall.addKey [104, 105]] 0 i).length
      < 2 ^ 31 := by
  intro i
  simp only [segmentKeys]
  split_ifs <;> simp

theorem segment_coverage_witness :
    (callsAssert firstBytePolicy FilterBlockBuilder.create
      [FilterCall.startBlock 10, FilterCall.addKey [104, 105]] = true) ∧
    (FilterBlockReader.create firstBytePolicy
      (FilterBlockBuilder.Finish firstBytePolicy (runCalls firstBytePolicy
        FilterBlockBuilder.create
        [FilterCall.startBlock 10, FilterCall.addKey [104, 105]]))).num_
      = lastIndex [FilterCall.startBlock 10, FilterCall.addKey [104, 105]] 0
        + (if (segmentKeys [FilterCall.startBlock 10, FilterCall.addKey [104, 105]] 0
            (lastIndex [FilterCall.startBlock 10, FilterCall.addKey [104, 105]] 0)).isEmpty
          then 0 else 1) :=
  have hA : callsAssert firstBytePolicy FilterBlockBuilder.create
      [FilterCall.startBlock 10, FilterCall.addKey [104, 105]] = true := by
    simp [callsAssert, StartBlockAssert, FilterBlockBuilder.create, kFilterBase, kFilterBaseLg]
  ⟨hA, (segment_coverage firstBytePolicy _ hA sample_calls_size sample_calls_keys).2.1⟩

/-! ### Flush failures and empty segments -/

/-- C10 as amended: for every policy, every buffer accepted by the reader and
every `block_offset` whose index is in range and whose segment has `start =
limit`: when the segment lies in the data region (`limit` at most the array
offset) `KeyMayMatch` returns what the policy answers for the key on the
empty filter, and when `limit` is beyond the array offset it returns false
without asking the policy. -/
theorem empty_segment_result (P : FilterPolicy) (contents : List Nat)
    (block_offset : Nat) (key : List Nat)
    (h : block_offset >>> (FilterBlockReader.create P contents).base_lg_
      < (FilterBlockReader.create P contents).num_)
    (hs : DecodeFixed32 contents ((FilterBlockReader.create P contents).offset_
          + (block_offset >>> (FilterBlockReader.create P contents).base_lg_) * 4)
        = DecodeFixed32 contents ((FilterBlockReader.create P contents).offset_
          + (block_offset >>> (FilterBlockReader.create P contents).base_lg_) * 4 + 4)) :
    (FilterBlockReader.create P contents).KeyMayMatch block_offset key
      = if DecodeFixed32 contents ((FilterBlockReader.create P contents).offset_
            + (block_offset >>> (FilterBlockReader.create P contents).base_lg_) * 4 + 4)
          ≤ (FilterBlockReader.create P contents).offset_
        then P.KeyMayMatch key [] else false := by
  obtain ⟨h5, hw, hr⟩ := FilterBlockReader.create_accepted P contents
    (Nat.lt_of_le_of_lt (Nat.zero_le _) h)
  rw [hr] at h hs ⊢
  simp only at h hs
  simp only [FilterBlockReader.KeyMayMatch, h, if_true, Option.getD_some]
  by_cases hl : DecodeFixed32 contents (DecodeFixed32 contents (contents.length - 5)
      + block_offset >>> (contents.getD (contents.length - 1) 0 % 256) * 4 + 4)
      ≤ DecodeFixed32 contents (contents.length - 5)
  · rw [if_pos ⟨le_of_eq hs, hl⟩, if_pos hl]
    have h0 : DecodeFixed32 contents (DecodeFixed32 contents (contents.length - 5)
        + block_offset >>> (contents.getD (contents.length - 1) 0 % 256) * 4 + 4)
        - DecodeFixed32 contents (DecodeFixed32 contents (contents.length - 5)
        + block_offset >>> (contents.getD (contents.length - 1) 0 % 256) * 4) = 0 := by
      omega
    rw [h0, List.take_zero]
  · rw [if_neg (fun x => hl x.2), if_pos hs, if_neg hl]

theorem empty_segment_result_witness :
    (0 >>> (FilterBlockReader.create alwaysMatch [0, 0, 0, 0, 0, 0, 0, 0, 11]).base_lg_
      < (FilterBlockReader.create alwaysMatch [0, 0, 0, 0, 0, 0, 0, 0, 11]).num_) ∧
    (FilterBlockReader.create alwaysMatch [0, 0, 0, 0, 0, 0, 0, 0, 11]).KeyMayMatch 0 [120]
      = if DecodeFixed32 [0, 0, 0, 0, 0, 0, 0, 0, 11]
            ((FilterBlockReader.create alwaysMatch [0, 0, 0, 0, 0, 0, 0, 0, 11]).offset_
              + (0 >>> (FilterBlockReader.create alwaysMatch
                  [0, 0, 0, 0, 0, 0, 0, 0, 11]).base_lg_) * 4 + 4)
          ≤ (FilterBlockReader.create alwaysMatch [0, 0, 0, 0, 0, 0, 0, 0, 11]).offset_
        then alwaysMatch.KeyMayMatch [120] [] else false :=
  have h : 0 >>> (FilterBlockReader.create alwaysMatch [0, 0, 0, 0, 0, 0, 0, 0, 11]).base_lg_
      < (FilterBlockReader.create alwaysMatch [0, 0, 0, 0, 0, 0, 0, 0, 11]).num_ := by
    simp [FilterBlockReader.create, DecodeFixed32]
  ⟨h, empty_segment_result alwaysMatch [0, 0, 0, 0, 0, 0, 0, 0, 11] 0 [120] h
    (by simp [FilterBlockReader.create, DecodeFixed32])⟩

end leveldb
